import Mathlib

/-!
Verification of the directory-synchronization program in `sync/sync.py`.

The program mirrors a source directory tree onto a replica tree:
`dirSync` computes a six-way diff with `dirCmp` and applies copy, remove,
update, mkdir and rmtree primitives, recursing into subdirectories.
File contents are compared by an md5 digest computed over 64 KiB chunks
(`digest`, `fileCmp`).

This file gives a shallow embedding of that program:

* a directory tree is an `Entry` (regular file with its byte content,
  symbolic link carrying the byte content it resolves to — `none` for a
  broken link —, directory with named children, or `other` for entries
  that are neither files nor directories, e.g. FIFOs and sockets);
* `Path.is_file()` / `Path.is_dir()` become `Entry.visFile` / `Entry.visDir`
  (Python's `is_file` follows symlinks, so a link resolving to a file
  counts as a file, while a broken link counts as neither);
* the chunked md5 of `digest` becomes `digestBytes`, whose accumulator
  state is the concatenation of the chunks fed so far (this matches the
  documented semantics of `hashlib`: `update(a); update(b)` is
  `update(a+b)`); the 128-bit finalization `md5f` is idealized as a
  perfect fingerprint of the byte stream, as the specification does when
  it equates fingerprint equality with content equality;
* `dirCmp` becomes `dirCmpE` and `dirSync` becomes `dirSyncE`, both in an
  error monad: exceptions that the Python code does not catch
  (`iterdir` on a missing or non-directory path, a failed read inside
  `digest`) surface as `Except.error`, while the five apply primitives
  catch every exception internally exactly as their `try/except` blocks do;
* filesystem faults are injected through a `Faults` record of per-path
  oracles (unreadable file, failing copy, failing remove, ...), so that
  the `try/except` structure of the code is observable;
* `dirSyncE` also returns the trace of successfully applied operations,
  mirroring the success log lines of the primitives, which lets order-of-
  operation and idempotence claims be stated;
* recursion is driven by a fuel parameter so that every definition is
  structurally recursive and evaluates by `rfl`/`decide`; any fuel at
  least `Entry.size` of the source is sufficient.

Python `set` iteration order is unspecified; the model fixes the order in
which each category of the diff is listed (source listing order).  No
claim depends on the order of operations inside one category.
-/

namespace VSync

/-- Byte strings, as lists of byte values. -/
abbrev Bytes := List Nat

/-- One filesystem entry, as the program observes it through `pathlib`.
A symlink carries the content it resolves to (`none` when broken);
`other` stands for entries that are neither files nor directories
(FIFOs, sockets, ...). -/
inductive Entry : Type where
  | file (content : Bytes)
  | symlink (resolved : Option Bytes)
  | dir (children : List (String × Entry))
  | other

/-- `Path.is_file()`: true for a regular file and for a symlink that
resolves to a file. -/
def Entry.visFile : Entry → Bool
  | .file _ => true
  | .symlink (some _) => true
  | _ => false

/-- `Path.is_dir()`. -/
def Entry.visDir : Entry → Bool
  | .dir _ => true
  | _ => false

/-- The bytes `open(path, 'rb')` yields: a symlink is read through. -/
def Entry.contentOf : Entry → Bytes
  | .file c => c
  | .symlink (some c) => c
  | _ => []

/-! ### Content comparator: `digest` and `fileCmp` -/

/-- The md5 finalization, idealized as a perfect fingerprint of the whole
byte stream (the specification identifies fingerprint equality with
content equality; collisions of the 128-bit digest are out of scope). -/
def md5f (msg : Bytes) : Bytes := msg

/-- The read loop of `digest`: `data = f.read(bs)` then
`while data: md5.update(data); data = f.read(bs)`.  The accumulator is
the concatenation of the chunks fed so far.  With `bs = 0` every read
returns the empty chunk and the loop never runs, as in Python.  The
`fuel` argument only drives structural recursion; one unit is spent per
chunk, so `data.length` units never run out. -/
def readLoop (bs : Nat) : Nat → Bytes → Bytes → Bytes
  | _, fed, [] => fed
  | 0, fed, _ :: _ => fed
  | fuel + 1, fed, b :: rest =>
      if bs = 0 then fed
      else readLoop bs fuel (fed ++ ((b :: rest).take bs)) ((b :: rest).drop bs)

/-- The whole read loop of `digest` on a stream `data`. -/
def readAll (bs : Nat) (fed data : Bytes) : Bytes :=
  readLoop bs data.length fed data

/-- `digest(file)` on a file whose byte content is `data`, reading in
chunks of `bs` bytes. -/
def digestBytes (bs : Nat) (data : Bytes) : Bytes :=
  md5f (readAll bs [] data)

/-- The chunk size constant of `digest`. -/
def bufferSize : Nat := 65536

/-- `fileCmp`, on the byte contents of the two files. -/
def fileCmp (a b : Bytes) : Bool :=
  digestBytes bufferSize a == digestBytes bufferSize b

theorem readLoop_eq_append (bs : Nat) (hbs : bs ≠ 0) :
    ∀ (fuel : Nat) (data : Bytes), data.length ≤ fuel → ∀ fed,
      readLoop bs fuel fed data = fed ++ data := by
  intro fuel
  induction fuel with
  | zero =>
      intro data hlen fed
      have hnil : data = [] := List.eq_nil_of_length_eq_zero (Nat.le_zero.mp hlen)
      subst hnil
      simp [readLoop]
  | succ n ih =>
      intro data hlen fed
      match data with
      | [] => simp [readLoop]
      | b :: rest =>
          rw [readLoop, if_neg hbs]
          have hbs1 : 1 ≤ bs := Nat.one_le_iff_ne_zero.mpr hbs
          have hlen2 : ((b :: rest).drop bs).length ≤ n := by
            simp only [List.length_drop, List.length_cons]
            simp only [List.length_cons] at hlen
            omega
          rw [ih _ hlen2]
          simp

theorem readAll_eq_append (bs : Nat) (hbs : bs ≠ 0) (fed data : Bytes) :
    readAll bs fed data = fed ++ data :=
  readLoop_eq_append bs hbs data.length data (le_refl _) fed

/-- Chunk-boundary independence: for any positive chunk size, the chunked
read loop feeds exactly the whole byte stream, so the digest is that of
the file read as one sequence. -/
theorem digestBytes_eq_md5f (bs : Nat) (hbs : 0 < bs) (data : Bytes) :
    digestBytes bs data = md5f data := by
  unfold digestBytes
  rw [readAll_eq_append bs (Nat.pos_iff_ne_zero.mp hbs) [] data]
  rfl

/-! ### Directory listings and association-list helpers -/

/-- The children of a directory, as listed by `iterdir`. -/
abbrev Children := List (String × Entry)

/-- The names of all entries of a directory. -/
def keys (cs : Children) : List String := cs.map Prod.fst

/-- The entry a path resolves to inside a directory listing. -/
def lookup (n : String) : Children → Option Entry
  | [] => none
  | (m, e) :: rest => if m = n then some e else lookup n rest

/-- Create or overwrite the entry named `n`. -/
def upsert (n : String) (e : Entry) : Children → Children
  | [] => [(n, e)]
  | (m, f) :: rest => if m = n then (m, e) :: rest else (m, f) :: upsert n e rest

/-- Delete the entry named `n` (`os.remove` / `shutil.rmtree`). -/
def eraseKey (n : String) : Children → Children
  | [] => []
  | (m, f) :: rest => if m = n then rest else (m, f) :: eraseKey n rest

/-- A real directory lists each name at most once. -/
def nodupKeys : Children → Bool
  | [] => true
  | (m, _) :: rest => !(keys rest).contains m && nodupKeys rest

mutual
/-- Well-formedness of a tree: every directory lists each name once. -/
def Entry.wf : Entry → Bool
  | .dir cs => nodupKeys cs && wfL cs
  | _ => true
/-- Well-formedness of every entry of a listing. -/
def wfL : Children → Bool
  | [] => true
  | (_, e) :: rest => Entry.wf e && wfL rest
end

mutual
/-- A size measure on trees, used to drive inductions. -/
def Entry.size : Entry → Nat
  | .dir cs => 1 + sizeL cs
  | _ => 1
/-- Total size of the entries of a listing. -/
def sizeL : Children → Nat
  | [] => 0
  | (_, e) :: rest => Entry.size e + sizeL rest
end

/-- `files1`/`files2` of `dirCmp`: names whose entry satisfies `is_file()`. -/
def fileNames (cs : Children) : List String :=
  (cs.filter (fun x => x.2.visFile)).map Prod.fst

/-- `subdirs1`/`subdirs2` of `dirCmp`: names whose entry satisfies `is_dir()`. -/
def dirNames (cs : Children) : List String :=
  (cs.filter (fun x => x.2.visDir)).map Prod.fst

/-! ### The diff (`dirCmp`) -/

/-- The six sets returned by `dirCmp`, in declaration order of the code:
`(newFiles, newDirs, updateFiles, updateDirs, removedFiles, removedDir)`. -/
structure DirDiff where
  newFiles : List String
  newDirs : List String
  updateFiles : List String
  updateDirs : List String
  removedFiles : List String
  removedDir : List String
deriving DecidableEq

/-- Per-path fault oracles, modelling the exceptions the OS can raise in
each primitive: an unreadable file inside `digest` (for the source or the
replica side), a failing `shutil.copy2` in `copyFile`, a failing
`os.remove` in `removeFile`, the failure of either step of `updateFile`
(`updCopyFail` stands for `shutil.copy2` raising before it creates the
target, e.g. the source vanished), a failing `os.mkdir` and a failing
`shutil.rmtree`.  Paths are relative to the pair of roots being synced. -/
structure Faults where
  unreadSrc : List String → Bool
  unreadDst : List String → Bool
  copyFail : List String → Bool
  removeFail : List String → Bool
  updRemoveFail : List String → Bool
  updCopyFail : List String → Bool
  mkdirFail : List String → Bool
  rmtreeFail : List String → Bool

/-- The fault-free filesystem. -/
def noFaults : Faults :=
  ⟨fun _ => false, fun _ => false, fun _ => false, fun _ => false,
   fun _ => false, fun _ => false, fun _ => false, fun _ => false⟩

/-- One successfully applied primitive, as logged by the program. -/
inductive Op : Type where
  | copy (path : List String)
  | removeF (path : List String)
  | update (path : List String)
  | mkdir (path : List String)
  | rmtree (path : List String)
deriving DecidableEq

/-- The path an operation was applied to. -/
def Op.path : Op → List String
  | .copy p => p
  | .removeF p => p
  | .update p => p
  | .mkdir p => p
  | .rmtree p => p

/-- The `updateFiles` comprehension of `dirCmp`: among the shared file
names, keep those whose `fileCmp` is false.  `digest` opens and reads
both files; an unreadable file raises `IOError`, which `dirCmp` does not
catch, hence the error monad. -/
def sharedUpdate (F : Faults) (p : List String) (sc tc : Children) :
    List String → Except Unit (List String)
  | [] => .ok []
  | n :: rest =>
      if F.unreadSrc (p ++ [n]) || F.unreadDst (p ++ [n]) then .error ()
      else
        match sharedUpdate F p sc tc rest with
        | .error u => .error u
        | .ok r =>
            if fileCmp ((lookup n sc).getD .other).contentOf
                ((lookup n tc).getD .other).contentOf
            then .ok r else .ok (n :: r)

/-- `dirCmp(dir1, dir2)`.  `iterdir` on a missing or non-directory path
raises (uncaught), as does `digest` on an unreadable shared file. -/
def dirCmpE (F : Faults) (p : List String) (s t : Entry) : Except Unit DirDiff :=
  match s, t with
  | .dir sc, .dir tc =>
      let f1 := fileNames sc
      let f2 := fileNames tc
      let d1 := dirNames sc
      let d2 := dirNames tc
      (sharedUpdate F p sc tc (f1.filter (fun n => f2.contains n))).map (fun upd =>
        { newFiles := f1.filter (fun n => !f2.contains n)
          newDirs := d1.filter (fun n => !d2.contains n)
          updateFiles := upd
          updateDirs := d1.filter (fun n => d2.contains n)
          removedFiles := f2.filter (fun n => !f1.contains n)
          removedDir := d2.filter (fun n => !d1.contains n) })
  | _, _ => .error ()

/-! ### The apply primitives

Each primitive wraps its body in `try/except`, so it never propagates an
exception; a fault simply leaves its effect half applied.  Each returns
the new replica listing and the list of success-logged operations. -/

/-- `shutil.copy2(source, target, follow_symlinks=False)`: the entry is
reproduced as-is; in particular a symlink is recreated as a link. -/
def copy2NoFollow (e : Entry) : Entry := e

/-- `shutil.copy2(source, target)` with the default `follow_symlinks=True`:
a symlink is dereferenced and a regular file with the resolved content is
created. -/
def copy2Follow : Entry → Entry
  | .symlink (some c) => .file c
  | e => e

/-- `copyFile`: called for names in `newFiles`, so the target path holds
no visible file.  If the target path is an existing directory,
`shutil.copy2` copies *into* it under the source's basename.  A target
occupied by an invisible entry is modelled as a caught failure (the real
outcome is OS-dependent).  -/
def copyFileP (F : Faults) (p : List String) (n : String) (e : Entry) (tc : Children) :
    Children × List Op :=
  if F.copyFail (p ++ [n]) then (tc, [])
  else
    match lookup n tc with
    | none => (upsert n (copy2NoFollow e) tc, [.copy (p ++ [n])])
    | some (.dir dc) => (upsert n (.dir (upsert n (copy2NoFollow e) dc)) tc, [.copy (p ++ [n])])
    | some _ => (tc, [])

/-- `removeFile`: `os.remove(target)` inside `try/except`. -/
def removeFileP (F : Faults) (p : List String) (n : String) (tc : Children) :
    Children × List Op :=
  if F.removeFail (p ++ [n]) then (tc, [])
  else (eraseKey n tc, [.removeF (p ++ [n])])

/-- `updateFile`: `os.remove(target)` then `shutil.copy2(source, target)`
inside one `try/except`.  If the copy raises after the removal succeeded,
the target is gone and nothing restores it. -/
def updateFileP (F : Faults) (p : List String) (n : String) (e : Entry) (tc : Children) :
    Children × List Op :=
  if F.updRemoveFail (p ++ [n]) then (tc, [])
  else if F.updCopyFail (p ++ [n]) then (eraseKey n tc, [])
  else (upsert n (copy2Follow e) (eraseKey n tc), [.update (p ++ [n])])

/-- `createDir`: `os.mkdir` raises `FileExistsError` when the name is
taken (caught and logged), otherwise creates an empty directory. -/
def createDirP (F : Faults) (p : List String) (n : String) (tc : Children) :
    Children × List Op :=
  match lookup n tc with
  | some _ => (tc, [])
  | none =>
      if F.mkdirFail (p ++ [n]) then (tc, [])
      else (upsert n (.dir []) tc, [.mkdir (p ++ [n])])

/-- `removeDir`: `shutil.rmtree` inside `try/except`. -/
def rmtreeP (F : Faults) (p : List String) (n : String) (tc : Children) :
    Children × List Op :=
  if F.rmtreeFail (p ++ [n]) then (tc, [])
  else (eraseKey n tc, [.rmtree (p ++ [n])])

/-- The `for file in newFiles: copyFile(...)` loop. -/
def foldCopy (F : Faults) (p : List String) (sc : Children) :
    List String → Children → Children × List Op
  | [], tc => (tc, [])
  | n :: rest, tc =>
      let a := copyFileP F p n ((lookup n sc).getD .other) tc
      let b := foldCopy F p sc rest a.1
      (b.1, a.2 ++ b.2)

/-- The `for file in removedFiles: removeFile(...)` loop. -/
def foldRemove (F : Faults) (p : List String) :
    List String → Children → Children × List Op
  | [], tc => (tc, [])
  | n :: rest, tc =>
      let a := removeFileP F p n tc
      let b := foldRemove F p rest a.1
      (b.1, a.2 ++ b.2)

/-- The `for file in updateFiles: updateFile(...)` loop. -/
def foldUpdate (F : Faults) (p : List String) (sc : Children) :
    List String → Children → Children × List Op
  | [], tc => (tc, [])
  | n :: rest, tc =>
      let a := updateFileP F p n ((lookup n sc).getD .other) tc
      let b := foldUpdate F p sc rest a.1
      (b.1, a.2 ++ b.2)

/-- The `for dir in removedDir: removeDir(...)` loop. -/
def foldRmtree (F : Faults) (p : List String) :
    List String → Children → Children × List Op
  | [], tc => (tc, [])
  | n :: rest, tc =>
      let a := rmtreeP F p n tc
      let b := foldRmtree F p rest a.1
      (b.1, a.2 ++ b.2)

/-! ### The synchronizer (`dirSync`) -/

mutual
/-- `dirSync(source, target)`: compute the diff, then apply, in the exact
order of the code: copy new files, delete removed files, update shared
files with differing digests, create each new directory and immediately
recurse into it, delete removed directories, finally recurse into shared
directories.  Exceptions raised by `dirCmp` or by a recursive call
propagate — `dirSync` has no handler. -/
def dirSyncE (F : Faults) (p : List String) : Entry → Entry → Except Unit (Entry × List Op)
  | .dir sc, .dir tc =>
      match dirCmpE F p (.dir sc) (.dir tc) with
      | .error u => .error u
      | .ok d =>
          let a1 := foldCopy F p sc d.newFiles tc
          let a2 := foldRemove F p d.removedFiles a1.1
          let a3 := foldUpdate F p sc d.updateFiles a2.1
          match syncDirs F p d.newDirs true sc a3.1 with
          | .error u => .error u
          | .ok a4 =>
              let a5 := foldRmtree F p d.removedDir a4.1
              match syncDirs F p d.updateDirs false sc a5.1 with
              | .error u => .error u
              | .ok a6 => .ok (.dir a6.1, a1.2 ++ a2.2 ++ a3.2 ++ a4.2 ++ a5.2 ++ a6.2)
  | _, _ => .error ()

/-- The two directory-recursion loops of `dirSync`, iterating over the
source listing and acting on the names in `names`: with `create = true`
this is the `newDirs` loop (`createDir` then recurse), otherwise the
`updateDirs` loop (recurse only).  The entry the recursion sees on the
replica side is whatever the target path holds at that moment — if
`mkdir` failed, the recursive `dirCmp` raises just as `iterdir` does on a
missing path, and that exception aborts the whole pass. -/
def syncDirs (F : Faults) (p : List String) (names : List String) (create : Bool) :
    Children → Children → Except Unit (Children × List Op)
  | [], tc => .ok (tc, [])
  | (n, e) :: rest, tc =>
      if names.contains n then
        let step : Children × List Op :=
          if create then createDirP F p n tc else (tc, [])
        match dirSyncE F (p ++ [n]) e ((lookup n step.1).getD .other) with
        | .error u => .error u
        | .ok (r, tr) =>
            match syncDirs F p names create rest (upsert n r step.1) with
            | .error u => .error u
            | .ok (tc2, tr2) => .ok (tc2, step.2 ++ tr ++ tr2)
      else syncDirs F p names create rest tc
end

/-! ### Compatibility and convergence predicates -/

/-- Does the first listing's entry at `n` satisfy `is_file()`? -/
def visFileAt (cs : Children) (n : String) : Bool :=
  ((lookup n cs).getD .other).visFile

/-- Does the listing's entry at `n` satisfy `is_dir()`? -/
def visDirAt (cs : Children) (n : String) : Bool :=
  ((lookup n cs).getD .other).visDir

/-- `xs` is contained in `ys`. -/
def subKeys (xs ys : List String) : Bool := xs.all (fun n => ys.contains n)

/-- Well-formedness of one listing. -/
def wfC (cs : Children) : Bool := nodupKeys cs && wfL cs

mutual
/-- No entry kind stands in the way of mirroring `s` onto `t`: wherever a
source entry is visible, the replica path is free or holds an entry of
the same kind (file over file, directory over directory, recursively).
This excludes the configurations on which the program misbehaves: a source
file over a replica directory (the copy lands *inside* the directory and
the later `rmtree` deletes it), and a visible source entry over a replica
entry that is neither file nor directory (a failed `mkdir` there makes
the recursive `iterdir` raise and abort the pass; a copy onto a FIFO or
broken link is OS-dependent). -/
def compatible : Entry → Entry → Bool
  | .dir sc, .dir tc => compatL sc tc
  | _, _ => false
/-- `compatible`, entry by entry over the source listing. -/
def compatL : Children → Children → Bool
  | [], _ => true
  | (n, e) :: rest, tc =>
      (match lookup n tc with
       | none => true
       | some f =>
           if e.visFile then f.visFile
           else if e.visDir then f.visDir && compatible e f
           else true) && compatL rest tc
end

mutual
/-- The replica `t` mirrors the source `s`: both are directories; every
visible file of `s` exists in `t` as a visible file with an equal
digest, every directory of `s` exists in `t` and mirrors recursively,
and `t` has no visible file or directory that `s` lacks.  Entries that
are neither files nor directories are invisible to the program and are
not constrained. -/
def mirrors : Entry → Entry → Bool
  | .dir sc, .dir tc =>
      subKeys (fileNames tc) (fileNames sc) && subKeys (dirNames tc) (dirNames sc) &&
        mirrorsL sc tc
  | _, _ => false
/-- `mirrors`, entry by entry over the source listing. -/
def mirrorsL : Children → Children → Bool
  | [], _ => true
  | (n, e) :: rest, tc =>
      (if e.visFile then
         match lookup n tc with
         | some f => f.visFile && fileCmp e.contentOf f.contentOf
         | none => false
       else if e.visDir then
         match lookup n tc with
         | some f => mirrors e f
         | none => false
       else true) && mirrorsL rest tc
end

/-! ### Association-list lemmas -/

theorem lookup_upsert_self (n : String) (e : Entry) :
    ∀ cs : Children, lookup n (upsert n e cs) = some e := by
  intro cs
  induction cs with
  | nil => simp [upsert, lookup]
  | cons hd rest ih =>
      obtain ⟨m, f⟩ := hd
      by_cases h : m = n
      · simp [upsert, h, lookup]
      · simp [upsert, h, lookup, ih]

theorem lookup_upsert_ne (n m : String) (e : Entry) (hnm : n ≠ m) :
    ∀ cs : Children, lookup m (upsert n e cs) = lookup m cs := by
  intro cs
  induction cs with
  | nil => simp [upsert, lookup, hnm]
  | cons hd rest ih =>
      obtain ⟨k, f⟩ := hd
      by_cases h : k = n
      · subst h
        simp [upsert, lookup, hnm]
      · simp [upsert, h, lookup, ih]

theorem lookup_eraseKey_ne (n m : String) (hnm : n ≠ m) :
    ∀ cs : Children, lookup m (eraseKey n cs) = lookup m cs := by
  intro cs
  induction cs with
  | nil => simp [eraseKey, lookup]
  | cons hd rest ih =>
      obtain ⟨k, f⟩ := hd
      by_cases h : k = n
      · subst h
        simp [eraseKey, lookup, hnm]
      · simp [eraseKey, h, lookup, ih]

theorem contains_iff (l : List String) (a : String) : l.contains a = true ↔ a ∈ l :=
  List.elem_iff

theorem keys_cons (m : String) (f : Entry) (rest : Children) :
    keys ((m, f) :: rest) = m :: keys rest := rfl

theorem nodupKeys_cons (m : String) (f : Entry) (rest : Children) :
    nodupKeys ((m, f) :: rest) = true ↔ m ∉ keys rest ∧ nodupKeys rest = true := by
  simp only [nodupKeys, Bool.and_eq_true, Bool.not_eq_true']
  constructor
  · intro ⟨h1, h2⟩
    refine ⟨fun hm => ?_, h2⟩
    rw [(contains_iff _ _).mpr hm] at h1
    exact Bool.false_ne_true h1.symm
  · intro ⟨h1, h2⟩
    refine ⟨?_, h2⟩
    by_cases hc : (keys rest).contains m = true
    · exact absurd ((contains_iff _ _).mp hc) h1
    · exact Bool.not_eq_true _ ▸ hc

theorem mem_keys_of_lookup (n : String) (e : Entry) :
    ∀ cs : Children, lookup n cs = some e → n ∈ keys cs := by
  intro cs
  induction cs with
  | nil => simp [lookup]
  | cons hd rest ih =>
      obtain ⟨m, f⟩ := hd
      rw [keys_cons]
      by_cases h : m = n
      · subst h
        simp
      · simp only [lookup, if_neg h]
        intro hl
        exact List.mem_cons_of_mem _ (ih hl)

theorem lookup_eq_none_of_not_mem_keys (n : String) :
    ∀ cs : Children, n ∉ keys cs → lookup n cs = none := by
  intro cs
  induction cs with
  | nil => simp [lookup]
  | cons hd rest ih =>
      obtain ⟨m, f⟩ := hd
      rw [keys_cons]
      intro hn
      have hmn : ¬ m = n := fun h => hn (h ▸ List.mem_cons_self m _)
      have hrest : n ∉ keys rest := fun h => hn (List.mem_cons_of_mem _ h)
      simp [lookup, hmn, ih hrest]

theorem lookup_eraseKey_self (n : String) :
    ∀ cs : Children, nodupKeys cs = true → lookup n (eraseKey n cs) = none := by
  intro cs
  induction cs with
  | nil => simp [eraseKey, lookup]
  | cons hd rest ih =>
      obtain ⟨m, f⟩ := hd
      intro hwf
      obtain ⟨h1, h2⟩ := (nodupKeys_cons m f rest).mp hwf
      by_cases h : m = n
      · subst h
        simpa [eraseKey] using lookup_eq_none_of_not_mem_keys m rest h1
      · simp [eraseKey, h, lookup, ih h2]

theorem lookup_mem (n : String) (e : Entry) :
    ∀ cs : Children, lookup n cs = some e → (n, e) ∈ cs := by
  intro cs
  induction cs with
  | nil => simp [lookup]
  | cons hd rest ih =>
      obtain ⟨m, f⟩ := hd
      by_cases h : m = n
      · subst h
        intro hl
        rw [lookup, if_pos rfl] at hl
        injection hl with hfe
        subst hfe
        exact List.mem_cons_self _ _
      · simp only [lookup, if_neg h]
        intro hl
        exact List.mem_cons_of_mem _ (ih hl)

theorem mem_keys_iff (n : String) (cs : Children) :
    n ∈ keys cs ↔ ∃ e, (n, e) ∈ cs := by
  constructor
  · intro h
    obtain ⟨x, hmem, heq⟩ := List.mem_map.mp h
    refine ⟨x.2, ?_⟩
    rw [show (n, x.2) = x from by rw [← heq]]
    exact hmem
  · intro ⟨e, h⟩
    exact List.mem_map.mpr ⟨(n, e), h, rfl⟩

theorem lookup_eq_of_mem (n : String) (e : Entry) :
    ∀ cs : Children, nodupKeys cs = true → (n, e) ∈ cs → lookup n cs = some e := by
  intro cs
  induction cs with
  | nil => simp
  | cons hd rest ih =>
      obtain ⟨m, f⟩ := hd
      intro hwf hmem
      obtain ⟨h1, h2⟩ := (nodupKeys_cons m f rest).mp hwf
      rcases List.mem_cons.mp hmem with h | h
      · have hn : n = m := congrArg Prod.fst h
        have he : e = f := congrArg Prod.snd h
        subst hn
        subst he
        simp [lookup]
      · have hne : ¬ m = n := by
          intro hmn
          subst hmn
          exact h1 ((mem_keys_iff m rest).mpr ⟨e, h⟩)
        simp [lookup, hne, ih h2 h]

theorem nodupKeys_iff_nodup : ∀ cs : Children, nodupKeys cs = true ↔ (keys cs).Nodup := by
  intro cs
  induction cs with
  | nil => simp [nodupKeys, keys]
  | cons hd rest ih =>
      obtain ⟨m, f⟩ := hd
      rw [nodupKeys_cons, keys_cons, List.nodup_cons, ih]

theorem mem_upsert (n : String) (e : Entry) :
    ∀ cs : Children, ∀ x, x ∈ upsert n e cs → x = (n, e) ∨ x ∈ cs := by
  intro cs
  induction cs with
  | nil => simp [upsert]
  | cons hd rest ih =>
      obtain ⟨m, f⟩ := hd
      intro x hx
      by_cases h : m = n
      · subst h
        simp only [upsert, if_pos rfl] at hx
        rcases List.mem_cons.mp hx with h | h
        · exact Or.inl (by rw [h])
        · exact Or.inr (List.mem_cons_of_mem _ h)
      · simp only [upsert, if_neg h] at hx
        rcases List.mem_cons.mp hx with h2 | h2
        · exact Or.inr (by rw [h2]; exact List.mem_cons_self _ _)
        · rcases ih x h2 with h3 | h3
          · exact Or.inl h3
          · exact Or.inr (List.mem_cons_of_mem _ h3)

theorem keys_upsert_mem (n : String) (e : Entry) :
    ∀ cs : Children, n ∈ keys cs → keys (upsert n e cs) = keys cs := by
  intro cs
  induction cs with
  | nil => simp [keys]
  | cons hd rest ih =>
      obtain ⟨m, f⟩ := hd
      intro hn
      by_cases h : m = n
      · subst h
        simp [upsert, keys]
      · rw [keys_cons] at hn
        have : n ∈ keys rest := by
          rcases List.mem_cons.mp hn with h2 | h2
          · exact absurd h2.symm h
          · exact h2
        simp [upsert, h, keys_cons, ih this]

theorem keys_upsert_not_mem (n : String) (e : Entry) :
    ∀ cs : Children, n ∉ keys cs → keys (upsert n e cs) = keys cs ++ [n] := by
  intro cs
  induction cs with
  | nil => simp [upsert, keys]
  | cons hd rest ih =>
      obtain ⟨m, f⟩ := hd
      intro hn
      rw [keys_cons] at hn
      have hmn : ¬ m = n := fun h => hn (h ▸ List.mem_cons_self m _)
      have hrest : n ∉ keys rest := fun h => hn (List.mem_cons_of_mem _ h)
      simp [upsert, hmn, keys_cons, ih hrest]

theorem nodupKeys_upsert (n : String) (e : Entry) (cs : Children)
    (h : nodupKeys cs = true) : nodupKeys (upsert n e cs) = true := by
  rw [nodupKeys_iff_nodup] at *
  by_cases hn : n ∈ keys cs
  · rw [keys_upsert_mem n e cs hn]
    exact h
  · rw [keys_upsert_not_mem n e cs hn]
    exact List.Nodup.append h (List.nodup_singleton n) (by
      intro a ha hb
      simp at hb
      exact hn (hb ▸ ha))

theorem keys_eraseKey_sublist (n : String) :
    ∀ cs : Children, (keys (eraseKey n cs)).Sublist (keys cs) := by
  intro cs
  induction cs with
  | nil => simp [eraseKey, keys]
  | cons hd rest ih =>
      obtain ⟨m, f⟩ := hd
      by_cases h : m = n
      · simp only [eraseKey, if_pos h, keys_cons]
        exact List.sublist_cons_of_sublist m (List.Sublist.refl _)
      · simp only [eraseKey, if_neg h, keys_cons]
        exact List.Sublist.cons₂ m ih

theorem mem_eraseKey (n : String) :
    ∀ cs : Children, ∀ x, x ∈ eraseKey n cs → x ∈ cs := by
  intro cs
  induction cs with
  | nil => simp [eraseKey]
  | cons hd rest ih =>
      obtain ⟨m, f⟩ := hd
      intro x hx
      by_cases h : m = n
      · simp only [eraseKey, if_pos h] at hx
        exact List.mem_cons_of_mem _ hx
      · simp only [eraseKey, if_neg h] at hx
        rcases List.mem_cons.mp hx with h2 | h2
        · exact h2 ▸ List.mem_cons_self _ _
        · exact List.mem_cons_of_mem _ (ih x h2)

theorem nodupKeys_eraseKey (n : String) (cs : Children)
    (h : nodupKeys cs = true) : nodupKeys (eraseKey n cs) = true := by
  rw [nodupKeys_iff_nodup] at *
  exact List.Nodup.sublist (keys_eraseKey_sublist n cs) h

theorem wfL_iff : ∀ cs : Children, wfL cs = true ↔ ∀ x ∈ cs, Entry.wf x.2 = true := by
  intro cs
  induction cs with
  | nil => simp [wfL]
  | cons hd rest ih =>
      obtain ⟨m, f⟩ := hd
      simp [wfL, ih]

theorem wfL_upsert (n : String) (e : Entry) (cs : Children)
    (he : Entry.wf e = true) (h : wfL cs = true) : wfL (upsert n e cs) = true := by
  rw [wfL_iff] at *
  intro x hx
  rcases mem_upsert n e cs x hx with h2 | h2
  · rw [h2]
    exact he
  · exact h x h2

theorem wfL_eraseKey (n : String) (cs : Children)
    (h : wfL cs = true) : wfL (eraseKey n cs) = true := by
  rw [wfL_iff] at *
  intro x hx
  exact h x (mem_eraseKey n cs x hx)

theorem wf_dir_iff (cs : Children) :
    Entry.wf (.dir cs) = true ↔ nodupKeys cs = true ∧ wfL cs = true := by
  simp [Entry.wf]

theorem wfC_upsert (n : String) (e : Entry) (cs : Children)
    (he : Entry.wf e = true) (h : wfC cs = true) : wfC (upsert n e cs) = true := by
  simp only [wfC, Bool.and_eq_true] at *
  exact ⟨nodupKeys_upsert n e cs h.1, wfL_upsert n e cs he h.2⟩

theorem wfC_eraseKey (n : String) (cs : Children)
    (h : wfC cs = true) : wfC (eraseKey n cs) = true := by
  simp only [wfC, Bool.and_eq_true] at *
  exact ⟨nodupKeys_eraseKey n cs h.1, wfL_eraseKey n cs h.2⟩

theorem wf_of_mem (cs : Children) (n : String) (e : Entry)
    (h : wfL cs = true) (hmem : (n, e) ∈ cs) : Entry.wf e = true :=
  (wfL_iff cs).mp h (n, e) hmem

/-! ### Membership in the directory listings -/

theorem mem_fileNames (cs : Children) (n : String) :
    n ∈ fileNames cs ↔ ∃ e, (n, e) ∈ cs ∧ e.visFile = true := by
  unfold fileNames
  constructor
  · intro h
    obtain ⟨x, hx, heq⟩ := List.mem_map.mp h
    have hx2 := List.mem_filter.mp hx
    exact ⟨x.2, by rw [show (n, x.2) = x from by rw [← heq]]; exact hx2.1, hx2.2⟩
  · intro ⟨e, hmem, hvis⟩
    exact List.mem_map.mpr ⟨(n, e), List.mem_filter.mpr ⟨hmem, hvis⟩, rfl⟩

theorem mem_dirNames (cs : Children) (n : String) :
    n ∈ dirNames cs ↔ ∃ e, (n, e) ∈ cs ∧ e.visDir = true := by
  unfold dirNames
  constructor
  · intro h
    obtain ⟨x, hx, heq⟩ := List.mem_map.mp h
    have hx2 := List.mem_filter.mp hx
    exact ⟨x.2, by rw [show (n, x.2) = x from by rw [← heq]]; exact hx2.1, hx2.2⟩
  · intro ⟨e, hmem, hvis⟩
    exact List.mem_map.mpr ⟨(n, e), List.mem_filter.mpr ⟨hmem, hvis⟩, rfl⟩

theorem mem_fileNames_iff (cs : Children) (hnd : nodupKeys cs = true) (n : String) :
    n ∈ fileNames cs ↔ visFileAt cs n = true := by
  rw [mem_fileNames]
  constructor
  · intro ⟨e, hmem, hvis⟩
    rw [visFileAt, lookup_eq_of_mem n e cs hnd hmem]
    exact hvis
  · intro h
    rw [visFileAt] at h
    match hl : lookup n cs with
    | some e =>
        rw [hl] at h
        exact ⟨e, lookup_mem n e cs hl, h⟩
    | none =>
        rw [hl] at h
        simp [Entry.visFile] at h

theorem mem_dirNames_iff (cs : Children) (hnd : nodupKeys cs = true) (n : String) :
    n ∈ dirNames cs ↔ visDirAt cs n = true := by
  rw [mem_dirNames]
  constructor
  · intro ⟨e, hmem, hvis⟩
    rw [visDirAt, lookup_eq_of_mem n e cs hnd hmem]
    exact hvis
  · intro h
    rw [visDirAt] at h
    match hl : lookup n cs with
    | some e =>
        rw [hl] at h
        exact ⟨e, lookup_mem n e cs hl, h⟩
    | none =>
        rw [hl] at h
        simp [Entry.visDir] at h

theorem not_visFile_and_visDir (e : Entry) :
    ¬ (e.visFile = true ∧ e.visDir = true) := by
  cases e <;> simp [Entry.visFile, Entry.visDir]

theorem visFileAt_visDirAt (cs : Children) (n : String) :
    ¬ (visFileAt cs n = true ∧ visDirAt cs n = true) :=
  not_visFile_and_visDir _

/-! ### Characterizing `dirCmp` -/

/-- The byte content `digest` reads at name `n` of a listing. -/
def contentAt (cs : Children) (n : String) : Bytes :=
  ((lookup n cs).getD .other).contentOf

/-- The six sets `dirCmp` computes on a pair of listings (they do not
depend on the fault oracle, only the success of the computation does). -/
def dirCmpSets (sc tc : Children) : DirDiff :=
  { newFiles := (fileNames sc).filter (fun n => !(fileNames tc).contains n)
    newDirs := (dirNames sc).filter (fun n => !(dirNames tc).contains n)
    updateFiles := ((fileNames sc).filter (fun n => (fileNames tc).contains n)).filter
      (fun n => !(fileCmp (contentAt sc n) (contentAt tc n)))
    updateDirs := (dirNames sc).filter (fun n => (dirNames tc).contains n)
    removedFiles := (fileNames tc).filter (fun n => !(fileNames sc).contains n)
    removedDir := (dirNames tc).filter (fun n => !(dirNames sc).contains n) }

theorem sharedUpdate_ok (F : Faults) (p : List String) (sc tc : Children)
    (hs : ∀ q, F.unreadSrc q = false) (hd : ∀ q, F.unreadDst q = false) :
    ∀ names, sharedUpdate F p sc tc names =
      .ok (names.filter (fun n => !(fileCmp (contentAt sc n) (contentAt tc n)))) := by
  intro names
  induction names with
  | nil => rfl
  | cons n rest ih =>
      rw [sharedUpdate, hs, hd, ih]
      simp only [Bool.or_self, Bool.false_eq_true, if_false, List.filter_cons]
      simp only [show ∀ (cs : Children) (m : String),
          ((lookup m cs).getD Entry.other).contentOf = contentAt cs m from fun _ _ => rfl]
      by_cases h : fileCmp (contentAt sc n) (contentAt tc n) = true
      · simp [h]
      · simp only [Bool.not_eq_true] at h
        simp [h]

theorem dirCmpE_ok (F : Faults) (p : List String) (sc tc : Children)
    (hs : ∀ q, F.unreadSrc q = false) (hd : ∀ q, F.unreadDst q = false) :
    dirCmpE F p (.dir sc) (.dir tc) = .ok (dirCmpSets sc tc) := by
  rw [dirCmpE, sharedUpdate_ok F p sc tc hs hd]
  rfl

theorem mem_newFiles (sc tc : Children) (hsc : nodupKeys sc = true)
    (htc : nodupKeys tc = true) (n : String) :
    n ∈ (dirCmpSets sc tc).newFiles ↔ visFileAt sc n = true ∧ visFileAt tc n = false := by
  unfold dirCmpSets
  simp only [List.mem_filter, Bool.not_eq_true', mem_fileNames_iff sc hsc,
    mem_fileNames_iff tc htc]
  constructor
  · intro ⟨h1, h2⟩
    refine ⟨h1, ?_⟩
    by_cases hv : visFileAt tc n = true
    · rw [(contains_iff _ _).mpr ((mem_fileNames_iff tc htc n).mpr hv)] at h2
      exact absurd h2 (by simp)
    · exact Bool.not_eq_true _ ▸ hv
  · intro ⟨h1, h2⟩
    refine ⟨h1, ?_⟩
    by_cases hc : (fileNames tc).contains n = true
    · have := (mem_fileNames_iff tc htc n).mp ((contains_iff _ _).mp hc)
      rw [this] at h2
      exact absurd h2 (by simp)
    · exact Bool.not_eq_true _ ▸ hc

theorem mem_removedFiles (sc tc : Children) (hsc : nodupKeys sc = true)
    (htc : nodupKeys tc = true) (n : String) :
    n ∈ (dirCmpSets sc tc).removedFiles ↔ visFileAt tc n = true ∧ visFileAt sc n = false := by
  unfold dirCmpSets
  simp only [List.mem_filter, Bool.not_eq_true', mem_fileNames_iff sc hsc,
    mem_fileNames_iff tc htc]
  constructor
  · intro ⟨h1, h2⟩
    refine ⟨h1, ?_⟩
    by_cases hv : visFileAt sc n = true
    · rw [(contains_iff _ _).mpr ((mem_fileNames_iff sc hsc n).mpr hv)] at h2
      exact absurd h2 (by simp)
    · exact Bool.not_eq_true _ ▸ hv
  · intro ⟨h1, h2⟩
    refine ⟨h1, ?_⟩
    by_cases hc : (fileNames sc).contains n = true
    · have := (mem_fileNames_iff sc hsc n).mp ((contains_iff _ _).mp hc)
      rw [this] at h2
      exact absurd h2 (by simp)
    · exact Bool.not_eq_true _ ▸ hc

theorem mem_updateFiles (sc tc : Children) (hsc : nodupKeys sc = true)
    (htc : nodupKeys tc = true) (n : String) :
    n ∈ (dirCmpSets sc tc).updateFiles ↔
      visFileAt sc n = true ∧ visFileAt tc n = true ∧
        fileCmp (contentAt sc n) (contentAt tc n) = false := by
  unfold dirCmpSets
  simp only [List.mem_filter, Bool.not_eq_true', mem_fileNames_iff sc hsc]
  constructor
  · intro ⟨⟨h1, h2⟩, h3⟩
    exact ⟨h1, (mem_fileNames_iff tc htc n).mp ((contains_iff _ _).mp h2), h3⟩
  · intro ⟨h1, h2, h3⟩
    exact ⟨⟨h1, (contains_iff _ _).mpr ((mem_fileNames_iff tc htc n).mpr h2)⟩, h3⟩

theorem mem_newDirs (sc tc : Children) (hsc : nodupKeys sc = true)
    (htc : nodupKeys tc = true) (n : String) :
    n ∈ (dirCmpSets sc tc).newDirs ↔ visDirAt sc n = true ∧ visDirAt tc n = false := by
  unfold dirCmpSets
  simp only [List.mem_filter, Bool.not_eq_true', mem_dirNames_iff sc hsc]
  constructor
  · intro ⟨h1, h2⟩
    refine ⟨h1, ?_⟩
    by_cases hv : visDirAt tc n = true
    · rw [(contains_iff _ _).mpr ((mem_dirNames_iff tc htc n).mpr hv)] at h2
      exact absurd h2 (by simp)
    · exact Bool.not_eq_true _ ▸ hv
  · intro ⟨h1, h2⟩
    refine ⟨h1, ?_⟩
    by_cases hc : (dirNames tc).contains n = true
    · have := (mem_dirNames_iff tc htc n).mp ((contains_iff _ _).mp hc)
      rw [this] at h2
      exact absurd h2 (by simp)
    · exact Bool.not_eq_true _ ▸ hc

theorem mem_removedDir (sc tc : Children) (hsc : nodupKeys sc = true)
    (htc : nodupKeys tc = true) (n : String) :
    n ∈ (dirCmpSets sc tc).removedDir ↔ visDirAt tc n = true ∧ visDirAt sc n = false := by
  unfold dirCmpSets
  simp only [List.mem_filter, Bool.not_eq_true', mem_dirNames_iff tc htc]
  constructor
  · intro ⟨h1, h2⟩
    refine ⟨h1, ?_⟩
    by_cases hv : visDirAt sc n = true
    · rw [(contains_iff _ _).mpr ((mem_dirNames_iff sc hsc n).mpr hv)] at h2
      exact absurd h2 (by simp)
    · exact Bool.not_eq_true _ ▸ hv
  · intro ⟨h1, h2⟩
    refine ⟨h1, ?_⟩
    by_cases hc : (dirNames sc).contains n = true
    · have := (mem_dirNames_iff sc hsc n).mp ((contains_iff _ _).mp hc)
      rw [this] at h2
      exact absurd h2 (by simp)
    · exact Bool.not_eq_true _ ▸ hc

theorem mem_updateDirs (sc tc : Children) (hsc : nodupKeys sc = true)
    (htc : nodupKeys tc = true) (n : String) :
    n ∈ (dirCmpSets sc tc).updateDirs ↔ visDirAt sc n = true ∧ visDirAt tc n = true := by
  unfold dirCmpSets
  simp only [List.mem_filter, mem_dirNames_iff sc hsc]
  constructor
  · intro ⟨h1, h2⟩
    exact ⟨h1, (mem_dirNames_iff tc htc n).mp ((contains_iff _ _).mp h2)⟩
  · intro ⟨h1, h2⟩
    exact ⟨h1, (contains_iff _ _).mpr ((mem_dirNames_iff tc htc n).mpr h2)⟩

/-! ### Partition predicates for the diff -/

/-- No name is a file on one side and a directory on the other. -/
def noClash (sc tc : Children) : Bool :=
  (keys sc).all (fun n =>
    !(visFileAt sc n && visDirAt tc n) && !(visDirAt sc n && visFileAt tc n))

/-- In how many of the six sets a name lies. -/
def memCount (d : DirDiff) (n : String) : Nat :=
  (if n ∈ d.newFiles then 1 else 0) + (if n ∈ d.newDirs then 1 else 0) +
    (if n ∈ d.updateFiles then 1 else 0) + (if n ∈ d.updateDirs then 1 else 0) +
    (if n ∈ d.removedFiles then 1 else 0) + (if n ∈ d.removedDir then 1 else 0)

theorem noClash_spec (sc tc : Children) (h : noClash sc tc = true) (n : String) :
    ¬ (visFileAt sc n = true ∧ visDirAt tc n = true) ∧
    ¬ (visDirAt sc n = true ∧ visFileAt tc n = true) := by
  by_cases hk : n ∈ keys sc
  · have := List.all_eq_true.mp h n hk
    simp only [Bool.and_eq_true, Bool.not_eq_true', Bool.and_eq_false_iff] at this
    constructor
    · intro ⟨h1, h2⟩
      rcases this.1 with h3 | h3 <;> simp_all
    · intro ⟨h1, h2⟩
      rcases this.2 with h3 | h3 <;> simp_all
  · have hnone : lookup n sc = none := lookup_eq_none_of_not_mem_keys n sc hk
    constructor
    · intro ⟨h1, _⟩
      rw [visFileAt, hnone] at h1
      simp [Entry.visFile] at h1
    · intro ⟨h1, _⟩
      rw [visDirAt, hnone] at h1
      simp [Entry.visDir] at h1

/-! ### Claim C6 — fingerprint correctness -/

/-- C6: files with identical byte content compare equal under `fileCmp`;
the chunked read of `digest` produces the digest of the whole byte stream
read as one sequence, for every positive chunk size; and two contents
differing in a single byte compare unequal. -/
theorem claim_c6_fingerprint :
    (∀ (bs : Nat) (c : Bytes), 0 < bs → digestBytes bs c = md5f c) ∧
    (∀ a b : Bytes, a = b → fileCmp a b = true) ∧
    (∀ (l1 l2 : Bytes) (x y : Nat), x ≠ y →
      fileCmp (l1 ++ x :: l2) (l1 ++ y :: l2) = false) := by
  refine ⟨fun bs c hbs => digestBytes_eq_md5f bs hbs c, ?_, ?_⟩
  · intro a b hab
    subst hab
    simp [fileCmp]
  · intro l1 l2 x y hxy
    have hpos : 0 < bufferSize := by
      rw [bufferSize]
      omega
    rw [fileCmp, digestBytes_eq_md5f bufferSize hpos, digestBytes_eq_md5f bufferSize hpos,
      md5f, md5f]
    rw [beq_eq_false_iff_ne]
    intro hcontra
    have := List.append_cancel_left hcontra
    injection this with h1
    exact hxy h1

/-- Witness for C6 at concrete inputs. -/
theorem claim_c6_fingerprint_witness :
    (0 < 2 ∧ digestBytes 2 [1, 2, 3, 4, 5] = md5f [1, 2, 3, 4, 5]) ∧
    ([9, 9] = ([9, 9] : Bytes) ∧ fileCmp [9, 9] [9, 9] = true) ∧
    ((1 : Nat) ≠ 2 ∧ fileCmp [0, 1, 5] [0, 2, 5] = false) :=
  ⟨⟨by decide, claim_c6_fingerprint.1 2 [1, 2, 3, 4, 5] (by decide)⟩,
   ⟨rfl, claim_c6_fingerprint.2.1 [9, 9] [9, 9] rfl⟩,
   ⟨by decide, claim_c6_fingerprint.2.2 [0] [5] 1 2 (by decide)⟩⟩

/-! ### Claim C3 — diff classification rule -/

/-- C3: `dirCmp` classifies each immediate child exactly by: file visible
in source but not in replica — new; visible in replica but not in source
— removed; visible in both — update iff `fileCmp` is false; directory
present in both — unconditionally in the recursed-into set. -/
theorem claim_c3_diff_classification (sc tc : Children) (F : Faults) (p : List String)
    (hs : ∀ q, F.unreadSrc q = false) (hd : ∀ q, F.unreadDst q = false)
    (hsc : Entry.wf (.dir sc) = true) (htc : Entry.wf (.dir tc) = true)
    (d : DirDiff) (hcmp : dirCmpE F p (.dir sc) (.dir tc) = .ok d) (n : String) :
    (n ∈ d.newFiles ↔ visFileAt sc n = true ∧ visFileAt tc n = false) ∧
    (n ∈ d.removedFiles ↔ visFileAt tc n = true ∧ visFileAt sc n = false) ∧
    (n ∈ d.updateFiles ↔ visFileAt sc n = true ∧ visFileAt tc n = true ∧
      fileCmp (contentAt sc n) (contentAt tc n) = false) ∧
    (n ∈ d.updateDirs ↔ visDirAt sc n = true ∧ visDirAt tc n = true) := by
  have hnsc : nodupKeys sc = true := ((wf_dir_iff sc).mp hsc).1
  have hntc : nodupKeys tc = true := ((wf_dir_iff tc).mp htc).1
  rw [dirCmpE_ok F p sc tc hs hd] at hcmp
  injection hcmp with hcmp
  subst hcmp
  exact ⟨mem_newFiles sc tc hnsc hntc n, mem_removedFiles sc tc hnsc hntc n,
    mem_updateFiles sc tc hnsc hntc n, mem_updateDirs sc tc hnsc hntc n⟩

/-- Witness for C3: source has file `a` and directory `d`, replica has
file `b` and directory `d`. -/
theorem claim_c3_diff_classification_witness :
    ((∀ q, noFaults.unreadSrc q = false) ∧ (∀ q, noFaults.unreadDst q = false) ∧
      Entry.wf (.dir [("a", .file [0]), ("d", .dir [])]) = true ∧
      Entry.wf (.dir [("b", .file [1]), ("d", .dir [])]) = true ∧
      dirCmpE noFaults [] (.dir [("a", .file [0]), ("d", .dir [])])
        (.dir [("b", .file [1]), ("d", .dir [])]) = .ok ⟨["a"], [], [], ["d"], ["b"], []⟩) ∧
    (("a" ∈ (⟨["a"], [], [], ["d"], ["b"], []⟩ : DirDiff).newFiles ↔
        visFileAt [("a", .file [0]), ("d", .dir [])] "a" = true ∧
        visFileAt [("b", .file [1]), ("d", .dir [])] "a" = false) ∧
      (("a" : String) ∈ (⟨["a"], [], [], ["d"], ["b"], []⟩ : DirDiff).removedFiles ↔
        visFileAt [("b", .file [1]), ("d", .dir [])] "a" = true ∧
        visFileAt [("a", .file [0]), ("d", .dir [])] "a" = false) ∧
      (("a" : String) ∈ (⟨["a"], [], [], ["d"], ["b"], []⟩ : DirDiff).updateFiles ↔
        visFileAt [("a", .file [0]), ("d", .dir [])] "a" = true ∧
        visFileAt [("b", .file [1]), ("d", .dir [])] "a" = true ∧
        fileCmp (contentAt [("a", .file [0]), ("d", .dir [])] "a")
          (contentAt [("b", .file [1]), ("d", .dir [])] "a") = false) ∧
      (("a" : String) ∈ (⟨["a"], [], [], ["d"], ["b"], []⟩ : DirDiff).updateDirs ↔
        visDirAt [("a", .file [0]), ("d", .dir [])] "a" = true ∧
        visDirAt [("b", .file [1]), ("d", .dir [])] "a" = true)) :=
  ⟨⟨fun _ => rfl, fun _ => rfl, rfl, rfl, rfl⟩,
    claim_c3_diff_classification [("a", .file [0]), ("d", .dir [])]
      [("b", .file [1]), ("d", .dir [])] noFaults [] (fun _ => rfl) (fun _ => rfl)
      rfl rfl ⟨["a"], [], [], ["d"], ["b"], []⟩ rfl "a"⟩

/-! ### Claim C5 — the six sets as a partition -/

/-- C5 counterexample: a name that is a file in the source and a directory
in the replica lies in two of the six sets at once (`newFiles` and
`removedDir`), so the sets are not pairwise disjoint as claimed. -/
theorem claim_c5_counterexample :
    dirCmpE noFaults [] (.dir [("a", .file [0])]) (.dir [("a", .dir [])]) =
      .ok ⟨["a"], [], [], [], [], ["a"]⟩ ∧
    memCount ⟨["a"], [], [], [], [], ["a"]⟩ "a" = 2 :=
  ⟨rfl, by decide⟩

/-- C5 amended: when no name is a file on one side and a directory on the
other, every name lies in at most one of the six sets, and it lies in
exactly one iff it is visible (as file or directory) on at least one side
and is not a shared file with equal digests.  Entries that are neither
files nor directories are never covered, and shared files with equal
digests lie in no set, so the union is not all of source ∪ replica. -/
theorem claim_c5_partition (sc tc : Children)
    (hsc : nodupKeys sc = true) (htc : nodupKeys tc = true)
    (hnc : noClash sc tc = true) (n : String) :
    memCount (dirCmpSets sc tc) n ≤ 1 ∧
    (memCount (dirCmpSets sc tc) n = 1 ↔
      ((visFileAt sc n = true ∨ visFileAt tc n = true ∨
          visDirAt sc n = true ∨ visDirAt tc n = true) ∧
        ¬ (visFileAt sc n = true ∧ visFileAt tc n = true ∧
            fileCmp (contentAt sc n) (contentAt tc n) = true))) := by
  have hexS := not_visFile_and_visDir ((lookup n sc).getD .other)
  have hexT := not_visFile_and_visDir ((lookup n tc).getD .other)
  have hncs := noClash_spec sc tc hnc n
  rw [show Entry.visFile ((lookup n sc).getD .other) = visFileAt sc n from rfl,
    show Entry.visDir ((lookup n sc).getD .other) = visDirAt sc n from rfl] at hexS
  rw [show Entry.visFile ((lookup n tc).getD .other) = visFileAt tc n from rfl,
    show Entry.visDir ((lookup n tc).getD .other) = visDirAt tc n from rfl] at hexT
  obtain h1 | h1 := Bool.eq_false_or_eq_true (visFileAt sc n) <;>
  obtain h2 | h2 := Bool.eq_false_or_eq_true (visFileAt tc n) <;>
  obtain h3 | h3 := Bool.eq_false_or_eq_true (visDirAt sc n) <;>
  obtain h4 | h4 := Bool.eq_false_or_eq_true (visDirAt tc n) <;>
  obtain h5 | h5 := Bool.eq_false_or_eq_true (fileCmp (contentAt sc n) (contentAt tc n)) <;>
    simp_all [memCount, mem_newFiles sc tc hsc htc n, mem_newDirs sc tc hsc htc n,
      mem_updateFiles sc tc hsc htc n, mem_updateDirs sc tc hsc htc n,
      mem_removedFiles sc tc hsc htc n, mem_removedDir sc tc hsc htc n]

/-- Witness for C5 amended. -/
theorem claim_c5_partition_witness :
    (nodupKeys [("a", Entry.file [0])] = true ∧ nodupKeys [("b", Entry.file [1])] = true ∧
      noClash [("a", Entry.file [0])] [("b", Entry.file [1])] = true) ∧
    (memCount (dirCmpSets [("a", Entry.file [0])] [("b", Entry.file [1])]) "a" ≤ 1 ∧
      (memCount (dirCmpSets [("a", Entry.file [0])] [("b", Entry.file [1])]) "a" = 1 ↔
        ((visFileAt [("a", Entry.file [0])] "a" = true ∨
            visFileAt [("b", Entry.file [1])] "a" = true ∨
            visDirAt [("a", Entry.file [0])] "a" = true ∨
            visDirAt [("b", Entry.file [1])] "a" = true) ∧
          ¬ (visFileAt [("a", Entry.file [0])] "a" = true ∧
              visFileAt [("b", Entry.file [1])] "a" = true ∧
              fileCmp (contentAt [("a", Entry.file [0])] "a")
                (contentAt [("b", Entry.file [1])] "a") = true)))) :=
  ⟨⟨rfl, rfl, rfl⟩,
    claim_c5_partition [("a", Entry.file [0])] [("b", Entry.file [1])] rfl rfl rfl "a"⟩

/-! ### Claim C8 — update atomicity -/

/-- The fault oracle of the C8 counterexample: `shutil.copy2` raises
inside `updateFile` (e.g. the source was deleted between the diff and the
copy), after `os.remove` already succeeded. -/
def updCopyFault : Faults := { noFaults with updCopyFail := fun _ => true }

/-- C8 counterexample: the replica file `a` (content `[1]`) is neither
replaced by the source content nor left unchanged — it is gone. -/
theorem claim_c8_counterexample :
    lookup "a" (updateFileP updCopyFault [] "a" (.file [9]) [("a", .file [1])]).1 = none ∧
    lookup "a" [("a", Entry.file [1])] = some (.file [1]) :=
  ⟨rfl, rfl⟩

/-- C8 amended: `updateFile` is remove-then-copy inside one `try/except`.
If the removal fails, the replica is unchanged; if the copy fails after a
successful removal, the replica file is left missing; only when both
steps succeed is the content replaced. -/
theorem claim_c8_update_cases (F : Faults) (p : List String) (n : String) (e : Entry)
    (tc : Children) (hnd : nodupKeys tc = true) :
    (F.updRemoveFail (p ++ [n]) = true → (updateFileP F p n e tc).1 = tc) ∧
    (F.updRemoveFail (p ++ [n]) = false → F.updCopyFail (p ++ [n]) = true →
      lookup n (updateFileP F p n e tc).1 = none) ∧
    (F.updRemoveFail (p ++ [n]) = false → F.updCopyFail (p ++ [n]) = false →
      lookup n (updateFileP F p n e tc).1 = some (copy2Follow e)) := by
  refine ⟨?_, ?_, ?_⟩
  · intro h
    rw [updateFileP, if_pos h]
  · intro h1 h2
    rw [updateFileP, if_neg (by simp [h1]), if_pos h2]
    exact lookup_eraseKey_self n tc hnd
  · intro h1 h2
    rw [updateFileP, if_neg (by simp [h1]), if_neg (by simp [h2])]
    exact lookup_upsert_self n (copy2Follow e) _

/-- Witness for C8 amended, exercising the copy-fails-after-remove case. -/
theorem claim_c8_update_cases_witness :
    (nodupKeys [("a", Entry.file [1])] = true ∧
      updCopyFault.updRemoveFail ["a"] = false ∧ updCopyFault.updCopyFail ["a"] = true) ∧
    lookup "a" (updateFileP updCopyFault [] "a" (.file [9]) [("a", .file [1])]).1 = none :=
  ⟨⟨rfl, rfl, rfl⟩,
    (claim_c8_update_cases updCopyFault [] "a" (.file [9]) [("a", .file [1])] rfl).2.1 rfl rfl⟩

/-! ### Claim C9 — symlink opacity -/

/-- C9 counterexample: `updateFile` on a symlink source produces a regular
file with the resolved content, not a link — `shutil.copy2` is called
without `follow_symlinks=False` there. -/
theorem claim_c9_counterexample :
    (updateFileP noFaults [] "a" (.symlink (some [7])) [("a", .file [1])]).1 =
      [("a", Entry.file [7])] ∧
    Entry.file [7] ≠ Entry.symlink (some [7]) :=
  ⟨rfl, by simp⟩

/-- C9 amended: the new-file copy (`copyFile`, which passes
`follow_symlinks=False`) recreates a symlink as a link, but the update
replacement (`updateFile`, which uses the `shutil.copy2` default)
dereferences it into a regular file with the target's content. -/
theorem claim_c9_symlink (c : Bytes) (p : List String) (n : String) (tc : Children)
    (hfree : lookup n tc = none) :
    lookup n (copyFileP noFaults p n (.symlink (some c)) tc).1 =
      some (.symlink (some c)) ∧
    lookup n (updateFileP noFaults p n (.symlink (some c)) tc).1 = some (.file c) := by
  constructor
  · rw [copyFileP, if_neg (by simp [noFaults]), hfree]
    exact lookup_upsert_self n _ _
  · rw [updateFileP, if_neg (by simp [noFaults]), if_neg (by simp [noFaults])]
    exact lookup_upsert_self n _ _

/-- Witness for C9 amended. -/
theorem claim_c9_symlink_witness :
    lookup "a" ([] : Children) = none ∧
    (lookup "a" (copyFileP noFaults [] "a" (.symlink (some [7])) []).1 =
        some (.symlink (some [7])) ∧
      lookup "a" (updateFileP noFaults [] "a" (.symlink (some [7])) []).1 =
        some (.file [7])) :=
  ⟨rfl, claim_c9_symlink [7] [] "a" [] rfl⟩

/-! ### Lookup behaviour of the primitives -/

theorem copyFileP_lookup_ne (F : Faults) (p : List String) (n : String) (e : Entry)
    (tc : Children) (m : String) (hm : m ≠ n) :
    lookup m (copyFileP F p n e tc).1 = lookup m tc := by
  by_cases hf : F.copyFail (p ++ [n]) = true
  · simp [copyFileP, hf]
  · cases hl : lookup n tc with
    | none =>
        simp only [copyFileP, hf, Bool.false_eq_true, if_false, hl]
        exact lookup_upsert_ne n m _ (Ne.symm hm) tc
    | some f =>
        cases f with
        | dir dc =>
            simp only [copyFileP, hf, Bool.false_eq_true, if_false, hl]
            exact lookup_upsert_ne n m _ (Ne.symm hm) tc
        | file c => simp [copyFileP, hf, hl]
        | symlink r => simp [copyFileP, hf, hl]
        | other => simp [copyFileP, hf, hl]

theorem removeFileP_lookup_ne (F : Faults) (p : List String) (n : String)
    (tc : Children) (m : String) (hm : m ≠ n) :
    lookup m (removeFileP F p n tc).1 = lookup m tc := by
  by_cases hf : F.removeFail (p ++ [n]) = true
  · simp [removeFileP, hf]
  · simp only [removeFileP, hf, Bool.false_eq_true, if_false]
    exact lookup_eraseKey_ne n m (Ne.symm hm) tc

theorem updateFileP_lookup_ne (F : Faults) (p : List String) (n : String) (e : Entry)
    (tc : Children) (m : String) (hm : m ≠ n) :
    lookup m (updateFileP F p n e tc).1 = lookup m tc := by
  by_cases h1 : F.updRemoveFail (p ++ [n]) = true
  · simp [updateFileP, h1]
  · by_cases h2 : F.updCopyFail (p ++ [n]) = true
    · simp only [updateFileP, h1, h2, Bool.false_eq_true, if_false, if_true]
      exact lookup_eraseKey_ne n m (Ne.symm hm) tc
    · simp only [updateFileP, h1, h2, Bool.false_eq_true, if_false]
      rw [lookup_upsert_ne n m _ (Ne.symm hm)]
      exact lookup_eraseKey_ne n m (Ne.symm hm) tc

theorem createDirP_lookup_ne (F : Faults) (p : List String) (n : String)
    (tc : Children) (m : String) (hm : m ≠ n) :
    lookup m (createDirP F p n tc).1 = lookup m tc := by
  cases hl : lookup n tc with
  | some f => simp [createDirP, hl]
  | none =>
      by_cases hf : F.mkdirFail (p ++ [n]) = true
      · simp [createDirP, hl, hf]
      · simp only [createDirP, hl, hf, Bool.false_eq_true, if_false]
        exact lookup_upsert_ne n m _ (Ne.symm hm) tc

theorem rmtreeP_lookup_ne (F : Faults) (p : List String) (n : String)
    (tc : Children) (m : String) (hm : m ≠ n) :
    lookup m (rmtreeP F p n tc).1 = lookup m tc := by
  by_cases hf : F.rmtreeFail (p ++ [n]) = true
  · simp [rmtreeP, hf]
  · simp only [rmtreeP, hf, Bool.false_eq_true, if_false]
    exact lookup_eraseKey_ne n m (Ne.symm hm) tc

/-! ### Fold specifications -/

theorem foldCopy_preserve (F : Faults) (p : List String) (sc : Children) :
    ∀ (names : List String) (tc : Children) (m : String), m ∉ names →
      lookup m (foldCopy F p sc names tc).1 = lookup m tc := by
  intro names
  induction names with
  | nil => intro tc m _; rfl
  | cons n rest ih =>
      intro tc m hm
      have hmn : m ≠ n := fun h => hm (h ▸ List.mem_cons_self n rest)
      have hmr : m ∉ rest := fun h => hm (List.mem_cons_of_mem n h)
      show lookup m (foldCopy F p sc rest (copyFileP F p n ((lookup n sc).getD .other) tc).1).1
          = lookup m tc
      rw [ih _ m hmr, copyFileP_lookup_ne F p n _ tc m hmn]

theorem foldRemove_preserve (F : Faults) (p : List String) :
    ∀ (names : List String) (tc : Children) (m : String), m ∉ names →
      lookup m (foldRemove F p names tc).1 = lookup m tc := by
  intro names
  induction names with
  | nil => intro tc m _; rfl
  | cons n rest ih =>
      intro tc m hm
      have hmn : m ≠ n := fun h => hm (h ▸ List.mem_cons_self n rest)
      have hmr : m ∉ rest := fun h => hm (List.mem_cons_of_mem n h)
      show lookup m (foldRemove F p rest (removeFileP F p n tc).1).1 = lookup m tc
      rw [ih _ m hmr, removeFileP_lookup_ne F p n tc m hmn]

theorem foldUpdate_preserve (F : Faults) (p : List String) (sc : Children) :
    ∀ (names : List String) (tc : Children) (m : String), m ∉ names →
      lookup m (foldUpdate F p sc names tc).1 = lookup m tc := by
  intro names
  induction names with
  | nil => intro tc m _; rfl
  | cons n rest ih =>
      intro tc m hm
      have hmn : m ≠ n := fun h => hm (h ▸ List.mem_cons_self n rest)
      have hmr : m ∉ rest := fun h => hm (List.mem_cons_of_mem n h)
      show lookup m (foldUpdate F p sc rest (updateFileP F p n ((lookup n sc).getD .other) tc).1).1
          = lookup m tc
      rw [ih _ m hmr, updateFileP_lookup_ne F p n _ tc m hmn]

theorem foldRmtree_preserve (F : Faults) (p : List String) :
    ∀ (names : List String) (tc : Children) (m : String), m ∉ names →
      lookup m (foldRmtree F p names tc).1 = lookup m tc := by
  intro names
  induction names with
  | nil => intro tc m _; rfl
  | cons n rest ih =>
      intro tc m hm
      have hmn : m ≠ n := fun h => hm (h ▸ List.mem_cons_self n rest)
      have hmr : m ∉ rest := fun h => hm (List.mem_cons_of_mem n h)
      show lookup m (foldRmtree F p rest (rmtreeP F p n tc).1).1 = lookup m tc
      rw [ih _ m hmr, rmtreeP_lookup_ne F p n tc m hmn]

theorem wf_copy2Follow (e : Entry) (h : Entry.wf e = true) :
    Entry.wf (copy2Follow e) = true := by
  cases e with
  | symlink r =>
      cases r with
      | some c => rfl
      | none => rfl
  | file c => exact h
  | dir cs => exact h
  | other => exact h

theorem fileCmp_refl (a : Bytes) : fileCmp a a = true := by
  simp [fileCmp]

theorem contentOf_copy2Follow (e : Entry) :
    (copy2Follow e).contentOf = e.contentOf := by
  cases e with
  | symlink r => cases r <;> rfl
  | file c => rfl
  | dir cs => rfl
  | other => rfl

theorem visFile_copy2Follow (e : Entry) (h : e.visFile = true) :
    (copy2Follow e).visFile = true := by
  cases e with
  | symlink r => cases r <;> simp_all [copy2Follow, Entry.visFile]
  | file c => exact h
  | dir cs => exact h
  | other => exact h

theorem copyFileP_none (F : Faults) (p : List String) (n : String) (e : Entry)
    (tc : Children) (h : lookup n tc = none) :
    (copyFileP F p n e tc).1 =
      if F.copyFail (p ++ [n]) = true then tc else upsert n (copy2NoFollow e) tc := by
  by_cases hf : F.copyFail (p ++ [n]) = true
  · simp [copyFileP, hf]
  · simp [copyFileP, hf, h]

theorem foldCopy_spec (F : Faults) (p : List String) (sc : Children) :
    ∀ (names : List String) (tc : Children),
      names.Nodup →
      (∀ n, n ∈ names → lookup n tc = none) →
      (∀ n, n ∈ names → Entry.wf ((lookup n sc).getD .other) = true) →
      wfC tc = true →
      wfC (foldCopy F p sc names tc).1 = true ∧
      (∀ n, n ∈ names → lookup n (foldCopy F p sc names tc).1 =
        (if F.copyFail (p ++ [n]) = true then none
         else some ((lookup n sc).getD .other))) := by
  intro names
  induction names with
  | nil => intro tc _ _ _ hwf; exact ⟨hwf, by simp⟩
  | cons n rest ih =>
      intro tc hnd hnone hwfe hwf
      have hnr : n ∉ rest := (List.nodup_cons.mp hnd).1
      have hndr : rest.Nodup := (List.nodup_cons.mp hnd).2
      have hn : lookup n tc = none := hnone n (List.mem_cons_self n rest)
      have he : Entry.wf ((lookup n sc).getD .other) = true :=
        hwfe n (List.mem_cons_self n rest)
      have htc1 : (copyFileP F p n ((lookup n sc).getD .other) tc).1 =
          if F.copyFail (p ++ [n]) = true then tc
          else upsert n (copy2NoFollow ((lookup n sc).getD .other)) tc :=
        copyFileP_none F p n _ tc hn
      have hwf1 : wfC (copyFileP F p n ((lookup n sc).getD .other) tc).1 = true := by
        rw [htc1]
        by_cases hf : F.copyFail (p ++ [n]) = true
        · simp [hf, hwf]
        · simp only [hf, Bool.false_eq_true, if_false]
          exact wfC_upsert n _ tc he hwf
      have hrest : ∀ m, m ∈ rest →
          lookup m (copyFileP F p n ((lookup n sc).getD .other) tc).1 = none := by
        intro m hm
        have hmn : m ≠ n := fun h => hnr (h ▸ hm)
        rw [copyFileP_lookup_ne F p n _ tc m hmn]
        exact hnone m (List.mem_cons_of_mem n hm)
      obtain ⟨ihwf, ihval⟩ := ih (copyFileP F p n ((lookup n sc).getD .other) tc).1
        hndr hrest (fun m hm => hwfe m (List.mem_cons_of_mem n hm)) hwf1
      refine ⟨ihwf, ?_⟩
      intro m hm
      rcases List.mem_cons.mp hm with hmn | hmr
      · subst hmn
        show lookup m (foldCopy F p sc rest (copyFileP F p m ((lookup m sc).getD .other) tc).1).1 = _
        rw [foldCopy_preserve F p sc rest _ m hnr, htc1]
        by_cases hf : F.copyFail (p ++ [m]) = true
        · simp [hf, hn]
        · simp only [hf, Bool.false_eq_true, if_false]
          exact lookup_upsert_self m _ tc
      · exact ihval m hmr

theorem foldRemove_spec (F : Faults) (p : List String) :
    ∀ (names : List String) (tc : Children),
      names.Nodup →
      wfC tc = true →
      wfC (foldRemove F p names tc).1 = true ∧
      (∀ n, n ∈ names → lookup n (foldRemove F p names tc).1 =
        (if F.removeFail (p ++ [n]) = true then lookup n tc else none)) := by
  intro names
  induction names with
  | nil => intro tc _ hwf; exact ⟨hwf, by simp⟩
  | cons n rest ih =>
      intro tc hnd hwf
      have hnr : n ∉ rest := (List.nodup_cons.mp hnd).1
      have hndr : rest.Nodup := (List.nodup_cons.mp hnd).2
      have hwf1 : wfC (removeFileP F p n tc).1 = true := by
        by_cases hf : F.removeFail (p ++ [n]) = true
        · simp [removeFileP, hf, hwf]
        · simp only [removeFileP, hf, Bool.false_eq_true, if_false]
          exact wfC_eraseKey n tc hwf
      obtain ⟨ihwf, ihval⟩ := ih (removeFileP F p n tc).1 hndr hwf1
      refine ⟨ihwf, ?_⟩
      intro m hm
      rcases List.mem_cons.mp hm with hmn | hmr
      · subst hmn
        show lookup m (foldRemove F p rest (removeFileP F p m tc).1).1 = _
        rw [foldRemove_preserve F p rest _ m hnr]
        by_cases hf : F.removeFail (p ++ [m]) = true
        · simp [removeFileP, hf]
        · simp only [removeFileP, hf, Bool.false_eq_true, if_false]
          exact lookup_eraseKey_self m tc (by
            have := hwf
            simp only [wfC, Bool.and_eq_true] at this
            exact this.1)
      · show lookup m (foldRemove F p rest (removeFileP F p n tc).1).1 = _
        rw [ihval m hmr]
        by_cases hf : F.removeFail (p ++ [m]) = true
        · simp only [hf, if_true]
          have hmn : m ≠ n := fun h => hnr (h ▸ hmr)
          exact removeFileP_lookup_ne F p n tc m hmn
        · simp [hf]

theorem foldUpdate_spec (F : Faults) (p : List String) (sc : Children) :
    ∀ (names : List String) (tc : Children),
      names.Nodup →
      (∀ n, n ∈ names → Entry.wf (copy2Follow ((lookup n sc).getD .other)) = true) →
      wfC tc = true →
      wfC (foldUpdate F p sc names tc).1 = true ∧
      (∀ n, n ∈ names → lookup n (foldUpdate F p sc names tc).1 =
        (if F.updRemoveFail (p ++ [n]) = true then lookup n tc
         else if F.updCopyFail (p ++ [n]) = true then none
         else some (copy2Follow ((lookup n sc).getD .other)))) := by
  intro names
  induction names with
  | nil => intro tc _ _ hwf; exact ⟨hwf, by simp⟩
  | cons n rest ih =>
      intro tc hnd hwfe hwf
      have hnr : n ∉ rest := (List.nodup_cons.mp hnd).1
      have hndr : rest.Nodup := (List.nodup_cons.mp hnd).2
      have hnodup : nodupKeys tc = true := by
        have := hwf
        simp only [wfC, Bool.and_eq_true] at this
        exact this.1
      have hwf1 : wfC (updateFileP F p n ((lookup n sc).getD .other) tc).1 = true := by
        by_cases h1 : F.updRemoveFail (p ++ [n]) = true
        · simp [updateFileP, h1, hwf]
        · by_cases h2 : F.updCopyFail (p ++ [n]) = true
          · simp only [updateFileP, h1, h2, Bool.false_eq_true, if_false, if_true]
            exact wfC_eraseKey n tc hwf
          · simp only [updateFileP, h1, h2, Bool.false_eq_true, if_false]
            exact wfC_upsert n _ _ (hwfe n (List.mem_cons_self n rest))
              (wfC_eraseKey n tc hwf)
      obtain ⟨ihwf, ihval⟩ := ih (updateFileP F p n ((lookup n sc).getD .other) tc).1 hndr
        (fun m hm => hwfe m (List.mem_cons_of_mem n hm)) hwf1
      refine ⟨ihwf, ?_⟩
      intro m hm
      rcases List.mem_cons.mp hm with hmn | hmr
      · subst hmn
        show lookup m (foldUpdate F p sc rest
          (updateFileP F p m ((lookup m sc).getD .other) tc).1).1 = _
        rw [foldUpdate_preserve F p sc rest _ m hnr]
        by_cases h1 : F.updRemoveFail (p ++ [m]) = true
        · simp [updateFileP, h1]
        · by_cases h2 : F.updCopyFail (p ++ [m]) = true
          · simp only [updateFileP, h1, h2, Bool.false_eq_true, if_false, if_true]
            exact lookup_eraseKey_self m tc hnodup
          · simp only [updateFileP, h1, h2, Bool.false_eq_true, if_false]
            exact lookup_upsert_self m _ _
      · show lookup m (foldUpdate F p sc rest
          (updateFileP F p n ((lookup n sc).getD .other) tc).1).1 = _
        rw [ihval m hmr]
        have hmn : m ≠ n := fun h => hnr (h ▸ hmr)
        by_cases h1 : F.updRemoveFail (p ++ [m]) = true
        · simp only [h1, if_true]
          exact updateFileP_lookup_ne F p n _ tc m hmn
        · simp [h1]

theorem foldRmtree_spec (F : Faults) (p : List String) :
    ∀ (names : List String) (tc : Children),
      names.Nodup →
      wfC tc = true →
      wfC (foldRmtree F p names tc).1 = true ∧
      (∀ n, n ∈ names → lookup n (foldRmtree F p names tc).1 =
        (if F.rmtreeFail (p ++ [n]) = true then lookup n tc else none)) := by
  intro names
  induction names with
  | nil => intro tc _ hwf; exact ⟨hwf, by simp⟩
  | cons n rest ih =>
      intro tc hnd hwf
      have hnr : n ∉ rest := (List.nodup_cons.mp hnd).1
      have hndr : rest.Nodup := (List.nodup_cons.mp hnd).2
      have hwf1 : wfC (rmtreeP F p n tc).1 = true := by
        by_cases hf : F.rmtreeFail (p ++ [n]) = true
        · simp [rmtreeP, hf, hwf]
        · simp only [rmtreeP, hf, Bool.false_eq_true, if_false]
          exact wfC_eraseKey n tc hwf
      obtain ⟨ihwf, ihval⟩ := ih (rmtreeP F p n tc).1 hndr hwf1
      refine ⟨ihwf, ?_⟩
      intro m hm
      rcases List.mem_cons.mp hm with hmn | hmr
      · subst hmn
        show lookup m (foldRmtree F p rest (rmtreeP F p m tc).1).1 = _
        rw [foldRmtree_preserve F p rest _ m hnr]
        by_cases hf : F.rmtreeFail (p ++ [m]) = true
        · simp [rmtreeP, hf]
        · simp only [rmtreeP, hf, Bool.false_eq_true, if_false]
          exact lookup_eraseKey_self m tc (by
            have := hwf
            simp only [wfC, Bool.and_eq_true] at this
            exact this.1)
      · show lookup m (foldRmtree F p rest (rmtreeP F p n tc).1).1 = _
        rw [ihval m hmr]
        by_cases hf : F.rmtreeFail (p ++ [m]) = true
        · simp only [hf, if_true]
          have hmn : m ≠ n := fun h => hnr (h ▸ hmr)
          exact rmtreeP_lookup_ne F p n tc m hmn
        · simp [hf]

/-! ### `syncDirs` specifications -/

theorem syncDirs_new_spec (F : Faults) (p : List String) (names : List String)
    (Q : Entry → Entry → Prop) (hmk : ∀ q, F.mkdirFail q = false) :
    ∀ (l tc : Children),
      nodupKeys l = true →
      (∀ n e, (n, e) ∈ l → names.contains n = true →
        ∃ r tr, dirSyncE F (p ++ [n]) e (.dir []) = .ok (r, tr) ∧ Entry.wf r = true ∧ Q e r) →
      (∀ n e, (n, e) ∈ l → names.contains n = true → lookup n tc = none) →
      wfC tc = true →
      ∃ tc2 tr2, syncDirs F p names true l tc = .ok (tc2, tr2) ∧ wfC tc2 = true ∧
        (∀ m, (∀ e, ¬ ((m, e) ∈ l ∧ names.contains m = true)) →
          lookup m tc2 = lookup m tc) ∧
        (∀ n e, (n, e) ∈ l → names.contains n = true →
          ∃ r, lookup n tc2 = some r ∧ Entry.wf r = true ∧ Q e r) := by
  intro l
  induction l with
  | nil =>
      intro tc _ _ _ hwf
      exact ⟨tc, [], rfl, hwf, fun m _ => rfl, by simp⟩
  | cons hd rest ih =>
      obtain ⟨n, e⟩ := hd
      intro tc hnd Hrec Hnone hwf
      obtain ⟨hn_notin, hnd_rest⟩ := (nodupKeys_cons n e rest).mp hnd
      by_cases hc : names.contains n = true
      · obtain ⟨r, tr, hsync, hwfr, hQ⟩ := Hrec n e (List.mem_cons_self _ _) hc
        have hlook : lookup n tc = none := Hnone n e (List.mem_cons_self _ _) hc
        have hstep : (createDirP F p n tc).1 = upsert n (.dir []) tc := by
          simp [createDirP, hlook, hmk]
        have hstep2 : (createDirP F p n tc).2 = [.mkdir (p ++ [n])] := by
          simp [createDirP, hlook, hmk]
        have htgt : (lookup n (createDirP F p n tc).1).getD .other = .dir [] := by
          rw [hstep, lookup_upsert_self]
          rfl
        have hwft : wfC (upsert n r (createDirP F p n tc).1) = true := by
          rw [hstep]
          exact wfC_upsert n r _ hwfr (wfC_upsert n (.dir []) tc rfl hwf)
        have hlift : ∀ m, m ∈ keys rest →
            lookup m (upsert n r (createDirP F p n tc).1) = lookup m tc := by
          intro m hm
          have hmn : ¬ n = m := fun h => hn_notin (h ▸ hm)
          rw [lookup_upsert_ne n m r hmn, hstep, lookup_upsert_ne n m _ hmn]
        obtain ⟨tc2, tr2, hs2, hwf2, hpres2, hval2⟩ :=
          ih (upsert n r (createDirP F p n tc).1) hnd_rest
            (fun m e' hm hcm => Hrec m e' (List.mem_cons_of_mem _ hm) hcm)
            (fun m e' hm hcm => by
              rw [hlift m ((mem_keys_iff m rest).mpr ⟨e', hm⟩)]
              exact Hnone m e' (List.mem_cons_of_mem _ hm) hcm)
            hwft
        refine ⟨tc2, (createDirP F p n tc).2 ++ tr ++ tr2, ?_, hwf2, ?_, ?_⟩
        · show syncDirs F p names true ((n, e) :: rest) tc = _
          rw [syncDirs]
          simp only [hc, if_true, htgt, hsync, hs2]
        · intro m hm
          have hmn : m ≠ n := by
            intro h
            exact hm e ⟨h ▸ List.mem_cons_self _ _, h ▸ hc⟩
          have : lookup m tc2 = lookup m (upsert n r (createDirP F p n tc).1) :=
            hpres2 m (fun e' ⟨hmem, hcm⟩ => hm e' ⟨List.mem_cons_of_mem _ hmem, hcm⟩)
          rw [this, lookup_upsert_ne n m r (Ne.symm hmn), hstep,
            lookup_upsert_ne n m _ (Ne.symm hmn)]
        · intro m e' hmem hcm
          rcases List.mem_cons.mp hmem with hh | hh
          · have hmn : m = n := congrArg Prod.fst hh
            have hee : e' = e := congrArg Prod.snd hh
            subst hmn
            subst hee
            have : lookup m tc2 = lookup m (upsert m r (createDirP F p m tc).1) :=
              hpres2 m (fun e2 ⟨hmem2, _⟩ => hn_notin ((mem_keys_iff m rest).mpr ⟨e2, hmem2⟩))
            rw [this, lookup_upsert_self]
            exact ⟨r, rfl, hwfr, hQ⟩
          · exact hval2 m e' hh hcm
      · obtain ⟨tc2, tr2, hs2, hwf2, hpres2, hval2⟩ :=
          ih tc hnd_rest
            (fun m e' hm hcm => Hrec m e' (List.mem_cons_of_mem _ hm) hcm)
            (fun m e' hm hcm => Hnone m e' (List.mem_cons_of_mem _ hm) hcm)
            hwf
        refine ⟨tc2, tr2, ?_, hwf2, ?_, ?_⟩
        · show syncDirs F p names true ((n, e) :: rest) tc = _
          rw [syncDirs]
          simp only [hc, Bool.false_eq_true, if_false]
          exact hs2
        · intro m hm
          exact hpres2 m (fun e' ⟨hmem, hcm⟩ => hm e' ⟨List.mem_cons_of_mem _ hmem, hcm⟩)
        · intro m e' hmem hcm
          rcases List.mem_cons.mp hmem with hh | hh
          · have hmn : m = n := congrArg Prod.fst hh
            rw [hmn] at hcm
            exact absurd hcm hc
          · exact hval2 m e' hh hcm

theorem syncDirs_shared_spec (F : Faults) (p : List String) (names : List String)
    (Q : Entry → Entry → Prop) :
    ∀ (l tc : Children),
      nodupKeys l = true →
      (∀ n e, (n, e) ∈ l → names.contains n = true →
        ∃ f, lookup n tc = some f ∧
          ∃ r tr, dirSyncE F (p ++ [n]) e f = .ok (r, tr) ∧ Entry.wf r = true ∧ Q e r) →
      wfC tc = true →
      ∃ tc2 tr2, syncDirs F p names false l tc = .ok (tc2, tr2) ∧ wfC tc2 = true ∧
        (∀ m, (∀ e, ¬ ((m, e) ∈ l ∧ names.contains m = true)) →
          lookup m tc2 = lookup m tc) ∧
        (∀ n e, (n, e) ∈ l → names.contains n = true →
          ∃ r, lookup n tc2 = some r ∧ Entry.wf r = true ∧ Q e r) := by
  intro l
  induction l with
  | nil =>
      intro tc _ _ hwf
      exact ⟨tc, [], rfl, hwf, fun m _ => rfl, by simp⟩
  | cons hd rest ih =>
      obtain ⟨n, e⟩ := hd
      intro tc hnd Hrec hwf
      obtain ⟨hn_notin, hnd_rest⟩ := (nodupKeys_cons n e rest).mp hnd
      by_cases hc : names.contains n = true
      · obtain ⟨f, hlook, r, tr, hsync, hwfr, hQ⟩ := Hrec n e (List.mem_cons_self _ _) hc
        have htgt : (lookup n tc).getD .other = f := by
          rw [hlook]
          rfl
        have hwft : wfC (upsert n r tc) = true := wfC_upsert n r tc hwfr hwf
        have hlift : ∀ m, m ∈ keys rest → lookup m (upsert n r tc) = lookup m tc := by
          intro m hm
          have hmn : ¬ n = m := fun h => hn_notin (h ▸ hm)
          rw [lookup_upsert_ne n m r hmn]
        obtain ⟨tc2, tr2, hs2, hwf2, hpres2, hval2⟩ :=
          ih (upsert n r tc) hnd_rest
            (fun m e' hm hcm => by
              obtain ⟨f', hf', rest'⟩ := Hrec m e' (List.mem_cons_of_mem _ hm) hcm
              exact ⟨f', by rw [hlift m ((mem_keys_iff m rest).mpr ⟨e', hm⟩)]; exact hf',
                rest'⟩)
            hwft
        refine ⟨tc2, [] ++ tr ++ tr2, ?_, hwf2, ?_, ?_⟩
        · show syncDirs F p names false ((n, e) :: rest) tc = _
          rw [syncDirs]
          simp [hc, htgt, hsync, hs2]
          intro hnot
          exact absurd ((contains_iff names n).mp hc) hnot
        · intro m hm
          have hmn : m ≠ n := by
            intro h
            exact hm e ⟨h ▸ List.mem_cons_self _ _, h ▸ hc⟩
          have : lookup m tc2 = lookup m (upsert n r tc) :=
            hpres2 m (fun e' ⟨hmem, hcm⟩ => hm e' ⟨List.mem_cons_of_mem _ hmem, hcm⟩)
          rw [this, lookup_upsert_ne n m r (Ne.symm hmn)]
        · intro m e' hmem hcm
          rcases List.mem_cons.mp hmem with hh | hh
          · have hmn : m = n := congrArg Prod.fst hh
            have hee : e' = e := congrArg Prod.snd hh
            subst hmn
            subst hee
            have : lookup m tc2 = lookup m (upsert m r tc) :=
              hpres2 m (fun e2 ⟨hmem2, _⟩ => hn_notin ((mem_keys_iff m rest).mpr ⟨e2, hmem2⟩))
            rw [this, lookup_upsert_self]
            exact ⟨r, rfl, hwfr, hQ⟩
          · exact hval2 m e' hh hcm
      · obtain ⟨tc2, tr2, hs2, hwf2, hpres2, hval2⟩ :=
          ih tc hnd_rest
            (fun m e' hm hcm => Hrec m e' (List.mem_cons_of_mem _ hm) hcm)
            hwf
        refine ⟨tc2, tr2, ?_, hwf2, ?_, ?_⟩
        · show syncDirs F p names false ((n, e) :: rest) tc = _
          rw [syncDirs]
          simp only [hc, Bool.false_eq_true, if_false]
          exact hs2
        · intro m hm
          exact hpres2 m (fun e' ⟨hmem, hcm⟩ => hm e' ⟨List.mem_cons_of_mem _ hmem, hcm⟩)
        · intro m e' hmem hcm
          rcases List.mem_cons.mp hmem with hh | hh
          · have hmn : m = n := congrArg Prod.fst hh
            rw [hmn] at hcm
            exact absurd hcm hc
          · exact hval2 m e' hh hcm

/-! ### Support lemmas for the main inductions -/

theorem size_pos (e : Entry) : 1 ≤ Entry.size e := by
  cases e <;> simp [Entry.size]

theorem sizeL_of_mem : ∀ (cs : Children) (n : String) (e : Entry),
    (n, e) ∈ cs → Entry.size e ≤ sizeL cs := by
  intro cs
  induction cs with
  | nil => simp
  | cons hd rest ih =>
      obtain ⟨m, f⟩ := hd
      intro n e hmem
      rcases List.mem_cons.mp hmem with h | h
      · have he : e = f := congrArg Prod.snd h
        subst he
        simp only [sizeL]
        exact Nat.le_add_right _ _
      · calc Entry.size e ≤ sizeL rest := ih n e h
          _ ≤ Entry.size f + sizeL rest := Nat.le_add_left _ _

theorem size_child_lt (cs : Children) (n : String) (e : Entry) (h : (n, e) ∈ cs) :
    Entry.size e < Entry.size (.dir cs) := by
  have h1 := sizeL_of_mem cs n e h
  simp only [Entry.size]
  omega

theorem compatible_dirs (s t : Entry) (h : compatible s t = true) :
    ∃ sc tc, s = .dir sc ∧ t = .dir tc := by
  cases s <;> cases t <;> first
    | exact ⟨_, _, rfl, rfl⟩
    | simp [compatible] at h

theorem compatible_dir_eq (sc tc : Children) :
    compatible (.dir sc) (.dir tc) = compatL sc tc := by
  rw [compatible]

theorem compatL_empty : ∀ sc : Children, compatL sc [] = true := by
  intro sc
  induction sc with
  | nil => rfl
  | cons hd rest ih =>
      obtain ⟨n, e⟩ := hd
      rw [compatL]
      simp only [lookup, ih, Bool.and_true]

theorem compatible_empty (cs : Children) : compatible (.dir cs) (.dir []) = true := by
  rw [compatible_dir_eq]
  exact compatL_empty cs

theorem compatL_spec : ∀ sc tc : Children, compatL sc tc = true →
    ∀ n e, (n, e) ∈ sc → ∀ f, lookup n tc = some f →
      (e.visFile = true → f.visFile = true) ∧
      (e.visDir = true → f.visDir = true ∧ compatible e f = true) := by
  intro sc
  induction sc with
  | nil => simp
  | cons hd rest ih =>
      obtain ⟨m, g⟩ := hd
      intro tc hcomp n e hmem f hf
      rw [compatL, Bool.and_eq_true] at hcomp
      rcases List.mem_cons.mp hmem with h | h
      · have hn : n = m := congrArg Prod.fst h
        have he : e = g := congrArg Prod.snd h
        subst hn
        subst he
        rw [hf] at hcomp
        have hm1 : (if e.visFile = true then f.visFile
            else if e.visDir = true then f.visDir && compatible e f else true) = true :=
          hcomp.1
        constructor
        · intro hvf
          rw [if_pos hvf] at hm1
          exact hm1
        · intro hvd
          have hvf : ¬ e.visFile = true := by
            intro hx
            exact absurd ⟨hx, hvd⟩ (not_visFile_and_visDir e)
          rw [if_neg hvf, if_pos hvd, Bool.and_eq_true] at hm1
          exact hm1
      · exact ih tc hcomp.2 n e h f hf

theorem subKeys_spec (xs ys : List String) (h : subKeys xs ys = true) :
    ∀ n ∈ xs, n ∈ ys := by
  intro n hn
  exact (contains_iff ys n).mp (List.all_eq_true.mp h n hn)

theorem subKeys_intro (xs ys : List String) (h : ∀ n ∈ xs, n ∈ ys) :
    subKeys xs ys = true :=
  List.all_eq_true.mpr (fun n hn => (contains_iff ys n).mpr (h n hn))

theorem mirrors_dir_eq (sc tc : Children) :
    mirrors (.dir sc) (.dir tc) =
      (subKeys (fileNames tc) (fileNames sc) && subKeys (dirNames tc) (dirNames sc) &&
        mirrorsL sc tc) := by
  rw [mirrors]

theorem mirrors_dirs (s t : Entry) (h : mirrors s t = true) :
    ∃ sc tc, s = .dir sc ∧ t = .dir tc := by
  cases s <;> cases t <;> first
    | exact ⟨_, _, rfl, rfl⟩
    | simp [mirrors] at h

theorem mirrors_visDir (e r : Entry) (h : mirrors e r = true) : r.visDir = true := by
  obtain ⟨sc, tc, _, hr⟩ := mirrors_dirs e r h
  subst hr
  rfl

theorem mirrors_not_visFile (e r : Entry) (h : mirrors e r = true) : r.visFile = false := by
  obtain ⟨sc, tc, _, hr⟩ := mirrors_dirs e r h
  subst hr
  rfl

theorem mirrorsL_intro : ∀ sc tc : Children,
    (∀ n e, (n, e) ∈ sc →
      (e.visFile = true → ∃ f, lookup n tc = some f ∧ f.visFile = true ∧
        fileCmp e.contentOf f.contentOf = true) ∧
      (e.visDir = true → ∃ f, lookup n tc = some f ∧ mirrors e f = true)) →
    mirrorsL sc tc = true := by
  intro sc
  induction sc with
  | nil => intro tc _; rfl
  | cons hd rest ih =>
      obtain ⟨n, e⟩ := hd
      intro tc hcond
      rw [mirrorsL, Bool.and_eq_true]
      refine ⟨?_, ih tc (fun m e' hm => hcond m e' (List.mem_cons_of_mem _ hm))⟩
      obtain ⟨hfile, hdir⟩ := hcond n e (List.mem_cons_self _ _)
      by_cases hvf : e.visFile = true
      · obtain ⟨f, hl, hvis, hcmp⟩ := hfile hvf
        rw [if_pos hvf, hl]
        show (f.visFile && fileCmp e.contentOf f.contentOf) = true
        rw [hvis, hcmp]
        rfl
      · rw [if_neg hvf]
        by_cases hvd : e.visDir = true
        · obtain ⟨f, hl, hm⟩ := hdir hvd
          rw [if_pos hvd, hl]
          show mirrors e f = true
          exact hm
        · rw [if_neg hvd]

theorem mirrorsL_spec : ∀ sc tc : Children, mirrorsL sc tc = true →
    ∀ n e, (n, e) ∈ sc →
      (e.visFile = true → ∃ f, lookup n tc = some f ∧ f.visFile = true ∧
        fileCmp e.contentOf f.contentOf = true) ∧
      (e.visDir = true → ∃ f, lookup n tc = some f ∧ mirrors e f = true) := by
  intro sc
  induction sc with
  | nil => simp
  | cons hd rest ih =>
      obtain ⟨m, g⟩ := hd
      intro tc hmir n e hmem
      rw [mirrorsL, Bool.and_eq_true] at hmir
      rcases List.mem_cons.mp hmem with h | h
      · have hn : n = m := congrArg Prod.fst h
        have he : e = g := congrArg Prod.snd h
        subst hn
        subst he
        have hm1 := hmir.1
        constructor
        · intro hvf
          rw [if_pos hvf] at hm1
          cases hl : lookup n tc with
          | none =>
              rw [hl] at hm1
              exact absurd (show (false : Bool) = true from hm1) (by simp)
          | some f =>
              rw [hl] at hm1
              have hm2 : (f.visFile && fileCmp e.contentOf f.contentOf) = true := hm1
              rw [Bool.and_eq_true] at hm2
              exact ⟨f, rfl, hm2.1, hm2.2⟩
        · intro hvd
          have hvf : ¬ e.visFile = true := by
            intro hx
            exact absurd ⟨hx, hvd⟩ (not_visFile_and_visDir e)
          rw [if_neg hvf, if_pos hvd] at hm1
          cases hl : lookup n tc with
          | none =>
              rw [hl] at hm1
              exact absurd (show (false : Bool) = true from hm1) (by simp)
          | some f =>
              rw [hl] at hm1
              exact ⟨f, rfl, hm1⟩
      · exact ih tc hmir.2 n e h

theorem visFileAt_spec (cs : Children) (n : String) :
    visFileAt cs n = true ↔ ∃ e, lookup n cs = some e ∧ e.visFile = true := by
  rw [visFileAt]
  cases hl : lookup n cs with
  | none => simp [Entry.visFile]
  | some e => simp

theorem visDirAt_spec (cs : Children) (n : String) :
    visDirAt cs n = true ↔ ∃ e, lookup n cs = some e ∧ e.visDir = true := by
  rw [visDirAt]
  cases hl : lookup n cs with
  | none => simp [Entry.visDir]
  | some e => simp

theorem visDirAt_false_of_file (cs : Children) (n : String)
    (h : visFileAt cs n = true) : visDirAt cs n = false := by
  by_cases hx : visDirAt cs n = true
  · exact absurd ⟨h, hx⟩ (visFileAt_visDirAt cs n)
  · exact Bool.not_eq_true _ ▸ hx

theorem visFileAt_false_of_dir (cs : Children) (n : String)
    (h : visDirAt cs n = true) : visFileAt cs n = false := by
  by_cases hx : visFileAt cs n = true
  · exact absurd ⟨hx, h⟩ (visFileAt_visDirAt cs n)
  · exact Bool.not_eq_true _ ▸ hx

theorem contains_false_iff (l : List String) (a : String) :
    l.contains a = false ↔ a ∉ l := by
  constructor
  · intro h hmem
    rw [(contains_iff l a).mpr hmem] at h
    exact Bool.true_eq_false ▸ h
  · intro h
    by_cases hc : l.contains a = true
    · exact absurd ((contains_iff l a).mp hc) h
    · exact Bool.not_eq_true _ ▸ hc

theorem fileNames_sublist (cs : Children) : (fileNames cs).Sublist (keys cs) :=
  List.Sublist.map Prod.fst (List.filter_sublist cs)

theorem dirNames_sublist (cs : Children) : (dirNames cs).Sublist (keys cs) :=
  List.Sublist.map Prod.fst (List.filter_sublist cs)

theorem fileNames_nodup (cs : Children) (h : nodupKeys cs = true) :
    (fileNames cs).Nodup :=
  List.Nodup.sublist (fileNames_sublist cs) ((nodupKeys_iff_nodup cs).mp h)

theorem dirNames_nodup (cs : Children) (h : nodupKeys cs = true) :
    (dirNames cs).Nodup :=
  List.Nodup.sublist (dirNames_sublist cs) ((nodupKeys_iff_nodup cs).mp h)

theorem wfC_iff_wf_dir (cs : Children) :
    wfC cs = true ↔ Entry.wf (.dir cs) = true := by
  rw [wf_dir_iff, wfC, Bool.and_eq_true]

theorem visDir_dir (e : Entry) (h : e.visDir = true) : ∃ ec, e = .dir ec := by
  cases e with
  | dir ec => exact ⟨ec, rfl⟩
  | file c => simp [Entry.visDir] at h
  | symlink r => simp [Entry.visDir] at h
  | other => simp [Entry.visDir] at h

/-- The convergence induction: one fault-free `dirSync` pass on compatible
well-formed trees succeeds and leaves the replica mirroring the source. -/
theorem syncMirrors : ∀ (N : Nat) (s t : Entry) (p : List String),
    Entry.size s ≤ N → Entry.wf s = true → Entry.wf t = true → compatible s t = true →
    ∃ r tr, dirSyncE noFaults p s t = .ok (r, tr) ∧ Entry.wf r = true ∧
      mirrors s r = true := by
  intro N
  induction N with
  | zero =>
      intro s t p hsize _ _ _
      have := size_pos s
      omega
  | succ N ih =>
      intro s t p hsize hwfs hwft hcompat
      obtain ⟨sc, tc, hseq, hteq⟩ := compatible_dirs s t hcompat
      subst hseq
      subst hteq
      have hcomp : compatL sc tc = true := by
        rw [← compatible_dir_eq]
        exact hcompat
      have hnsc : nodupKeys sc = true := ((wf_dir_iff sc).mp hwfs).1
      have hwlsc : wfL sc = true := ((wf_dir_iff sc).mp hwfs).2
      have hntc : nodupKeys tc = true := ((wf_dir_iff tc).mp hwft).1
      have hwltc : wfL tc = true := ((wf_dir_iff tc).mp hwft).2
      have hwfctc : wfC tc = true := (wfC_iff_wf_dir tc).mpr hwft
      have hcmp : dirCmpE noFaults p (.dir sc) (.dir tc) = .ok (dirCmpSets sc tc) :=
        dirCmpE_ok noFaults p sc tc (fun _ => rfl) (fun _ => rfl)
      -- no-duplicate name lists
      have hnup_nf : (dirCmpSets sc tc).newFiles.Nodup :=
        List.Nodup.filter _ (fileNames_nodup sc hnsc)
      have hnup_rf : (dirCmpSets sc tc).removedFiles.Nodup :=
        List.Nodup.filter _ (fileNames_nodup tc hntc)
      have hnup_uf : (dirCmpSets sc tc).updateFiles.Nodup :=
        List.Nodup.filter _ (List.Nodup.filter _ (fileNames_nodup sc hnsc))
      have hnup_rd : (dirCmpSets sc tc).removedDir.Nodup :=
        List.Nodup.filter _ (dirNames_nodup tc hntc)
      -- compatibility consequences for new files and new directories
      have KD1 : ∀ m, m ∈ (dirCmpSets sc tc).newFiles → lookup m tc = none := by
        intro m hm
        obtain ⟨h1, h2⟩ := (mem_newFiles sc tc hnsc hntc m).mp hm
        obtain ⟨e, hle, hve⟩ := (visFileAt_spec sc m).mp h1
        cases hl : lookup m tc with
        | none => rfl
        | some f =>
            have hvf := (compatL_spec sc tc hcomp m e (lookup_mem m e sc hle) f hl).1 hve
            have : visFileAt tc m = true := (visFileAt_spec tc m).mpr ⟨f, hl, hvf⟩
            rw [this] at h2
            exact absurd h2 (by simp)
      have KD2 : ∀ m, m ∈ (dirCmpSets sc tc).newDirs → lookup m tc = none := by
        intro m hm
        obtain ⟨h1, h2⟩ := (mem_newDirs sc tc hnsc hntc m).mp hm
        obtain ⟨e, hle, hve⟩ := (visDirAt_spec sc m).mp h1
        cases hl : lookup m tc with
        | none => rfl
        | some f =>
            have hvf := ((compatL_spec sc tc hcomp m e (lookup_mem m e sc hle) f hl).2 hve).1
            have : visDirAt tc m = true := (visDirAt_spec tc m).mpr ⟨f, hl, hvf⟩
            rw [this] at h2
            exact absurd h2 (by simp)
      -- step 1: copy the new files
      set A1 := foldCopy noFaults p sc (dirCmpSets sc tc).newFiles tc with hA1
      obtain ⟨hwf1, hval1⟩ := foldCopy_spec noFaults p sc (dirCmpSets sc tc).newFiles tc
        hnup_nf KD1
        (fun m hm => by
          obtain ⟨h1, _⟩ := (mem_newFiles sc tc hnsc hntc m).mp hm
          obtain ⟨e, hle, _⟩ := (visFileAt_spec sc m).mp h1
          rw [hle]
          exact wf_of_mem sc m e hwlsc (lookup_mem m e sc hle))
        hwfctc
      have hval1n : ∀ m, m ∈ (dirCmpSets sc tc).newFiles →
          lookup m A1.1 = some ((lookup m sc).getD .other) := by
        intro m hm
        rw [hval1 m hm]
        rfl
      -- step 2: delete the removed files
      set A2 := foldRemove noFaults p (dirCmpSets sc tc).removedFiles A1.1 with hA2
      obtain ⟨hwf2, hval2⟩ := foldRemove_spec noFaults p (dirCmpSets sc tc).removedFiles
        A1.1 hnup_rf hwf1
      have hval2n : ∀ m, m ∈ (dirCmpSets sc tc).removedFiles → lookup m A2.1 = none := by
        intro m hm
        rw [hval2 m hm]
        rfl
      -- step 3: update the shared files with differing digests
      set A3 := foldUpdate noFaults p sc (dirCmpSets sc tc).updateFiles A2.1 with hA3
      obtain ⟨hwf3, hval3⟩ := foldUpdate_spec noFaults p sc (dirCmpSets sc tc).updateFiles
        A2.1 hnup_uf
        (fun m hm => by
          obtain ⟨h1, _, _⟩ := (mem_updateFiles sc tc hnsc hntc m).mp hm
          obtain ⟨e, hle, _⟩ := (visFileAt_spec sc m).mp h1
          rw [hle]
          exact wf_copy2Follow e (wf_of_mem sc m e hwlsc (lookup_mem m e sc hle)))
        hwf2
      have hval3n : ∀ m, m ∈ (dirCmpSets sc tc).updateFiles →
          lookup m A3.1 = some (copy2Follow ((lookup m sc).getD .other)) := by
        intro m hm
        rw [hval3 m hm]
        rfl
      -- step 4: create the new directories and populate them
      obtain ⟨tc4, tr4, hs4, hwf4, hpres4, hval4⟩ :=
        syncDirs_new_spec noFaults p (dirCmpSets sc tc).newDirs
          (fun e r => mirrors e r = true) (fun _ => rfl) sc A3.1 hnsc
          (fun n e hmem hcm => by
            have hnd := (mem_newDirs sc tc hnsc hntc n).mp
              ((contains_iff _ n).mp hcm)
            have hle : lookup n sc = some e := lookup_eq_of_mem n e sc hnsc hmem
            obtain ⟨e', hle', hve'⟩ := (visDirAt_spec sc n).mp hnd.1
            rw [hle] at hle'
            injection hle' with hee
            subst hee
            obtain ⟨ec, heceq⟩ := visDir_dir e hve'
            have hsz : Entry.size e ≤ N := by
              have := size_child_lt sc n e hmem
              omega
            obtain ⟨r, tr, hok, hwfr, hmir⟩ := ih e (.dir []) (p ++ [n]) hsz
              (wf_of_mem sc n e hwlsc hmem) rfl
              (by rw [heceq]; exact compatible_empty ec)
            exact ⟨r, tr, hok, hwfr, hmir⟩)
          (fun n e hmem hcm => by
            have hnd := (mem_newDirs sc tc hnsc hntc n).mp
              ((contains_iff _ n).mp hcm)
            have hvds : visDirAt sc n = true := hnd.1
            have hnotf_s : visFileAt sc n = false := visFileAt_false_of_dir sc n hvds
            have hnotf_t : lookup n tc = none := KD2 n ((mem_newDirs sc tc hnsc hntc n).mpr hnd)
            have h1 : lookup n A3.1 = lookup n A2.1 := by
              apply foldUpdate_preserve
              intro hmem2
              have := ((mem_updateFiles sc tc hnsc hntc n).mp hmem2).1
              rw [hnotf_s] at this
              exact absurd this (by simp)
            have h2 : lookup n A2.1 = lookup n A1.1 := by
              apply foldRemove_preserve
              intro hmem2
              have := ((mem_removedFiles sc tc hnsc hntc n).mp hmem2).1
              rw [visFileAt, hnotf_t] at this
              exact absurd this (by simp [Entry.visFile])
            have h3 : lookup n A1.1 = lookup n tc := by
              apply foldCopy_preserve
              intro hmem2
              have := ((mem_newFiles sc tc hnsc hntc n).mp hmem2).1
              rw [hnotf_s] at this
              exact absurd this (by simp)
            rw [h1, h2, h3]
            exact hnotf_t)
          hwf3
      -- step 5: delete the removed directories
      set A5 := foldRmtree noFaults p (dirCmpSets sc tc).removedDir tc4 with hA5
      obtain ⟨hwf5, hval5⟩ := foldRmtree_spec noFaults p (dirCmpSets sc tc).removedDir
        tc4 hnup_rd hwf4
      have hval5n : ∀ m, m ∈ (dirCmpSets sc tc).removedDir → lookup m A5.1 = none := by
        intro m hm
        rw [hval5 m hm]
        rfl
      -- step 6: recurse into the shared directories
      obtain ⟨tc6, tr6, hs6, hwf6, hpres6, hval6⟩ :=
        syncDirs_shared_spec noFaults p (dirCmpSets sc tc).updateDirs
          (fun e r => mirrors e r = true) sc A5.1 hnsc
          (fun n e hmem hcm => by
            have hud := (mem_updateDirs sc tc hnsc hntc n).mp
              ((contains_iff _ n).mp hcm)
            have hle : lookup n sc = some e := lookup_eq_of_mem n e sc hnsc hmem
            obtain ⟨e', hle', hve'⟩ := (visDirAt_spec sc n).mp hud.1
            rw [hle] at hle'
            injection hle' with hee
            subst hee
            obtain ⟨f, hlf, hvf⟩ := (visDirAt_spec tc n).mp hud.2
            have hcf := (compatL_spec sc tc hcomp n e hmem f hlf).2 hve'
            have hnotf_s : visFileAt sc n = false := visFileAt_false_of_dir sc n hud.1
            have hnotf_t : visFileAt tc n = false := visFileAt_false_of_dir tc n hud.2
            -- the target child is untouched by steps 1-5
            have h5 : lookup n A5.1 = lookup n tc4 := by
              apply foldRmtree_preserve
              intro hmem2
              have := ((mem_removedDir sc tc hnsc hntc n).mp hmem2).2
              rw [hud.1] at this
              exact absurd this (by simp)
            have h4 : lookup n tc4 = lookup n A3.1 := by
              apply hpres4
              intro e2 ⟨_, hcm2⟩
              have := ((mem_newDirs sc tc hnsc hntc n).mp ((contains_iff _ n).mp hcm2)).2
              rw [hud.2] at this
              exact absurd this (by simp)
            have h3 : lookup n A3.1 = lookup n A2.1 := by
              apply foldUpdate_preserve
              intro hmem2
              have := ((mem_updateFiles sc tc hnsc hntc n).mp hmem2).1
              rw [hnotf_s] at this
              exact absurd this (by simp)
            have h2 : lookup n A2.1 = lookup n A1.1 := by
              apply foldRemove_preserve
              intro hmem2
              have := ((mem_removedFiles sc tc hnsc hntc n).mp hmem2).1
              rw [hnotf_t] at this
              exact absurd this (by simp)
            have h1 : lookup n A1.1 = lookup n tc := by
              apply foldCopy_preserve
              intro hmem2
              have := ((mem_newFiles sc tc hnsc hntc n).mp hmem2).1
              rw [hnotf_s] at this
              exact absurd this (by simp)
            refine ⟨f, by rw [h5, h4, h3, h2, h1]; exact hlf, ?_⟩
            have hsz : Entry.size e ≤ N := by
              have := size_child_lt sc n e hmem
              omega
            obtain ⟨r, tr, hok, hwfr, hmir⟩ := ih e f (p ++ [n]) hsz
              (wf_of_mem sc n e hwlsc hmem)
              (wf_of_mem tc n f hwltc (lookup_mem n f tc hlf))
              hcf.2
            exact ⟨r, tr, hok, hwfr, hmir⟩)
          hwf5
      -- assemble the run of dirSyncE
      have heq : dirSyncE noFaults p (.dir sc) (.dir tc) =
          .ok (.dir tc6, A1.2 ++ A2.2 ++ A3.2 ++ tr4 ++ A5.2 ++ tr6) := by
        rw [dirSyncE, hcmp]
        simp only []
        rw [← hA1, ← hA2, ← hA3, hs4]
        simp only []
        rw [← hA5, hs6]
      refine ⟨.dir tc6, A1.2 ++ A2.2 ++ A3.2 ++ tr4 ++ A5.2 ++ tr6, heq,
        (wfC_iff_wf_dir tc6).mp hwf6, ?_⟩
      -- non-membership helpers driven by the visibility of a name
      have nmem_nf_s : ∀ m, visFileAt sc m = false → m ∉ (dirCmpSets sc tc).newFiles := by
        intro m h hmem
        have h2 := ((mem_newFiles sc tc hnsc hntc m).mp hmem).1
        rw [h] at h2
        exact absurd h2 (by simp)
      have nmem_nf_t : ∀ m, visFileAt tc m = true → m ∉ (dirCmpSets sc tc).newFiles := by
        intro m h hmem
        have h2 := ((mem_newFiles sc tc hnsc hntc m).mp hmem).2
        rw [h] at h2
        exact absurd h2 (by simp)
      have nmem_rf_s : ∀ m, visFileAt sc m = true → m ∉ (dirCmpSets sc tc).removedFiles := by
        intro m h hmem
        have h2 := ((mem_removedFiles sc tc hnsc hntc m).mp hmem).2
        rw [h] at h2
        exact absurd h2 (by simp)
      have nmem_rf_t : ∀ m, visFileAt tc m = false → m ∉ (dirCmpSets sc tc).removedFiles := by
        intro m h hmem
        have h2 := ((mem_removedFiles sc tc hnsc hntc m).mp hmem).1
        rw [h] at h2
        exact absurd h2 (by simp)
      have nmem_uf_s : ∀ m, visFileAt sc m = false → m ∉ (dirCmpSets sc tc).updateFiles := by
        intro m h hmem
        have h2 := ((mem_updateFiles sc tc hnsc hntc m).mp hmem).1
        rw [h] at h2
        exact absurd h2 (by simp)
      have nmem_uf_t : ∀ m, visFileAt tc m = false → m ∉ (dirCmpSets sc tc).updateFiles := by
        intro m h hmem
        have h2 := ((mem_updateFiles sc tc hnsc hntc m).mp hmem).2.1
        rw [h] at h2
        exact absurd h2 (by simp)
      have nmem_uf_eq : ∀ m, fileCmp (contentAt sc m) (contentAt tc m) = true →
          m ∉ (dirCmpSets sc tc).updateFiles := by
        intro m h hmem
        have h2 := ((mem_updateFiles sc tc hnsc hntc m).mp hmem).2.2
        rw [h] at h2
        exact absurd h2 (by simp)
      have nmem_rd_s : ∀ m, visDirAt sc m = true → m ∉ (dirCmpSets sc tc).removedDir := by
        intro m h hmem
        have h2 := ((mem_removedDir sc tc hnsc hntc m).mp hmem).2
        rw [h] at h2
        exact absurd h2 (by simp)
      have nmem_rd_t : ∀ m, visDirAt tc m = false → m ∉ (dirCmpSets sc tc).removedDir := by
        intro m h hmem
        have h2 := ((mem_removedDir sc tc hnsc hntc m).mp hmem).1
        rw [h] at h2
        exact absurd h2 (by simp)
      have ndc_false : ∀ m, visDirAt sc m = false →
          ((dirCmpSets sc tc).newDirs.contains m) = false := by
        intro m h
        apply (contains_false_iff _ m).mpr
        intro hmem
        have h2 := ((mem_newDirs sc tc hnsc hntc m).mp hmem).1
        rw [h] at h2
        exact absurd h2 (by simp)
      have udc_false_s : ∀ m, visDirAt sc m = false →
          ((dirCmpSets sc tc).updateDirs.contains m) = false := by
        intro m h
        apply (contains_false_iff _ m).mpr
        intro hmem
        have h2 := ((mem_updateDirs sc tc hnsc hntc m).mp hmem).1
        rw [h] at h2
        exact absurd h2 (by simp)
      have udc_false_t : ∀ m, visDirAt tc m = false →
          ((dirCmpSets sc tc).updateDirs.contains m) = false := by
        intro m h
        apply (contains_false_iff _ m).mpr
        intro hmem
        have h2 := ((mem_updateDirs sc tc hnsc hntc m).mp hmem).2
        rw [h] at h2
        exact absurd h2 (by simp)
      have pres6' : ∀ m, ((dirCmpSets sc tc).updateDirs.contains m) = false →
          lookup m tc6 = lookup m A5.1 := by
        intro m hcm
        apply hpres6
        intro e ⟨_, hc2⟩
        rw [hcm] at hc2
        exact absurd hc2 (by simp)
      have pres4' : ∀ m, ((dirCmpSets sc tc).newDirs.contains m) = false →
          lookup m tc4 = lookup m A3.1 := by
        intro m hcm
        apply hpres4
        intro e ⟨_, hc2⟩
        rw [hcm] at hc2
        exact absurd hc2 (by simp)
      have chase63 : ∀ m, visDirAt sc m = false → visDirAt tc m = false →
          lookup m tc6 = lookup m A3.1 := by
        intro m h1 h2
        rw [pres6' m (udc_false_s m h1),
          foldRmtree_preserve noFaults p _ tc4 m (nmem_rd_t m h2),
          pres4' m (ndc_false m h1)]
      -- final lookup facts per category
      have H_nf : ∀ m, m ∈ (dirCmpSets sc tc).newFiles →
          lookup m tc6 = some ((lookup m sc).getD .other) := by
        intro m hm
        obtain ⟨h1, h2⟩ := (mem_newFiles sc tc hnsc hntc m).mp hm
        have hvds : visDirAt sc m = false := visDirAt_false_of_file sc m h1
        have hvdt : visDirAt tc m = false := by
          rw [visDirAt, KD1 m hm]
          rfl
        rw [chase63 m hvds hvdt,
          foldUpdate_preserve noFaults p sc _ A2.1 m (nmem_uf_t m h2),
          foldRemove_preserve noFaults p _ A1.1 m (nmem_rf_t m h2)]
        exact hval1n m hm
      have H_uf : ∀ m, m ∈ (dirCmpSets sc tc).updateFiles →
          lookup m tc6 = some (copy2Follow ((lookup m sc).getD .other)) := by
        intro m hm
        obtain ⟨h1, h2, h3⟩ := (mem_updateFiles sc tc hnsc hntc m).mp hm
        have hvds : visDirAt sc m = false := visDirAt_false_of_file sc m h1
        have hvdt : visDirAt tc m = false := visDirAt_false_of_file tc m h2
        rw [chase63 m hvds hvdt]
        exact hval3n m hm
      have H_rf : ∀ m, m ∈ (dirCmpSets sc tc).removedFiles → lookup m tc6 = none := by
        intro m hm
        obtain ⟨h1, h2⟩ := (mem_removedFiles sc tc hnsc hntc m).mp hm
        have hvdt : visDirAt tc m = false := visDirAt_false_of_file tc m h1
        have hvds : visDirAt sc m = false := by
          by_cases hx : visDirAt sc m = true
          · obtain ⟨e, hle, hve⟩ := (visDirAt_spec sc m).mp hx
            obtain ⟨f, hlf, hvf⟩ := (visFileAt_spec tc m).mp h1
            have := ((compatL_spec sc tc hcomp m e (lookup_mem m e sc hle) f hlf).2 hve).1
            exact absurd ⟨hvf, this⟩ (not_visFile_and_visDir f)
          · exact Bool.not_eq_true _ ▸ hx
        rw [chase63 m hvds hvdt,
          foldUpdate_preserve noFaults p sc _ A2.1 m (nmem_uf_s m h2)]
        exact hval2n m hm
      have H_rd : ∀ m, m ∈ (dirCmpSets sc tc).removedDir → lookup m tc6 = none := by
        intro m hm
        obtain ⟨h1, h2⟩ := (mem_removedDir sc tc hnsc hntc m).mp hm
        rw [pres6' m (udc_false_s m h2)]
        exact hval5n m hm
      have H_nd : ∀ n e, (n, e) ∈ sc → n ∈ (dirCmpSets sc tc).newDirs →
          ∃ r, lookup n tc6 = some r ∧ Entry.wf r = true ∧ mirrors e r = true := by
        intro n e hmem hm
        obtain ⟨h1, h2⟩ := (mem_newDirs sc tc hnsc hntc n).mp hm
        obtain ⟨r, hl4, hwfr, hmir⟩ := hval4 n e hmem ((contains_iff _ n).mpr hm)
        refine ⟨r, ?_, hwfr, hmir⟩
        rw [pres6' n (udc_false_t n h2),
          foldRmtree_preserve noFaults p _ tc4 n (nmem_rd_s n h1)]
        exact hl4
      have H_ud : ∀ n e, (n, e) ∈ sc → n ∈ (dirCmpSets sc tc).updateDirs →
          ∃ r, lookup n tc6 = some r ∧ Entry.wf r = true ∧ mirrors e r = true := by
        intro n e hmem hm
        exact hval6 n e hmem ((contains_iff _ n).mpr hm)
      have H_sharedeq : ∀ m, visFileAt sc m = true → visFileAt tc m = true →
          fileCmp (contentAt sc m) (contentAt tc m) = true →
          lookup m tc6 = lookup m tc := by
        intro m hfs hft hceq
        rw [chase63 m (visDirAt_false_of_file sc m hfs) (visDirAt_false_of_file tc m hft),
          foldUpdate_preserve noFaults p sc _ A2.1 m (nmem_uf_eq m hceq),
          foldRemove_preserve noFaults p _ A1.1 m (nmem_rf_s m hfs),
          foldCopy_preserve noFaults p sc _ tc m (nmem_nf_t m hft)]
      have H_untouched : ∀ m, visFileAt sc m = false → visFileAt tc m = false →
          visDirAt sc m = false → visDirAt tc m = false →
          lookup m tc6 = lookup m tc := by
        intro m h1 h2 h3 h4
        rw [chase63 m h3 h4,
          foldUpdate_preserve noFaults p sc _ A2.1 m (nmem_uf_s m h1),
          foldRemove_preserve noFaults p _ A1.1 m (nmem_rf_t m h2),
          foldCopy_preserve noFaults p sc _ tc m (nmem_nf_s m h1)]
      -- assemble `mirrors`
      have hnodup6 : nodupKeys tc6 = true := by
        have := hwf6
        simp only [wfC, Bool.and_eq_true] at this
        exact this.1
      rw [mirrors_dir_eq, Bool.and_eq_true, Bool.and_eq_true]
      refine ⟨⟨?_, ?_⟩, ?_⟩
      · -- every visible file of the result is a visible file of the source
        apply subKeys_intro
        intro m hm6
        obtain ⟨g, hg, hgv⟩ := (visFileAt_spec tc6 m).mp
          ((mem_fileNames_iff tc6 hnodup6 m).mp hm6)
        apply (mem_fileNames_iff sc hnsc m).mpr
        by_cases hvfs : visFileAt sc m = true
        · exact hvfs
        · exfalso
          have hvfs' : visFileAt sc m = false := Bool.not_eq_true _ ▸ hvfs
          by_cases hvds : visDirAt sc m = true
          · obtain ⟨e, hle, hve⟩ := (visDirAt_spec sc m).mp hvds
            have hmem := lookup_mem m e sc hle
            by_cases hvdt : visDirAt tc m = true
            · obtain ⟨r, hl6, _, hmir⟩ := H_ud m e hmem
                ((mem_updateDirs sc tc hnsc hntc m).mpr ⟨hvds, hvdt⟩)
              rw [hg] at hl6
              injection hl6 with hgr
              rw [← hgr] at hmir
              rw [mirrors_not_visFile e g hmir] at hgv
              exact absurd hgv (by simp)
            · have hvdt' : visDirAt tc m = false := Bool.not_eq_true _ ▸ hvdt
              obtain ⟨r, hl6, _, hmir⟩ := H_nd m e hmem
                ((mem_newDirs sc tc hnsc hntc m).mpr ⟨hvds, hvdt'⟩)
              rw [hg] at hl6
              injection hl6 with hgr
              rw [← hgr] at hmir
              rw [mirrors_not_visFile e g hmir] at hgv
              exact absurd hgv (by simp)
          · have hvds' : visDirAt sc m = false := Bool.not_eq_true _ ▸ hvds
            by_cases hvft : visFileAt tc m = true
            · have := H_rf m ((mem_removedFiles sc tc hnsc hntc m).mpr ⟨hvft, hvfs'⟩)
              rw [hg] at this
              exact absurd this (by simp)
            · have hvft' : visFileAt tc m = false := Bool.not_eq_true _ ▸ hvft
              by_cases hvdt : visDirAt tc m = true
              · have := H_rd m ((mem_removedDir sc tc hnsc hntc m).mpr ⟨hvdt, hvds'⟩)
                rw [hg] at this
                exact absurd this (by simp)
              · have hvdt' : visDirAt tc m = false := Bool.not_eq_true _ ▸ hvdt
                have := H_untouched m hvfs' hvft' hvds' hvdt'
                rw [hg] at this
                have : visFileAt tc m = true :=
                  (visFileAt_spec tc m).mpr ⟨g, this.symm, hgv⟩
                rw [hvft'] at this
                exact absurd this (by simp)
      · -- every directory of the result is a directory of the source
        apply subKeys_intro
        intro m hm6
        obtain ⟨g, hg, hgv⟩ := (visDirAt_spec tc6 m).mp
          ((mem_dirNames_iff tc6 hnodup6 m).mp hm6)
        apply (mem_dirNames_iff sc hnsc m).mpr
        by_cases hvds : visDirAt sc m = true
        · exact hvds
        · exfalso
          have hvds' : visDirAt sc m = false := Bool.not_eq_true _ ▸ hvds
          by_cases hvfs : visFileAt sc m = true
          · by_cases hvft : visFileAt tc m = true
            · by_cases hceq : fileCmp (contentAt sc m) (contentAt tc m) = true
              · have hchain := H_sharedeq m hvfs hvft hceq
                rw [hg] at hchain
                obtain ⟨f, hlf, hvf⟩ := (visFileAt_spec tc m).mp hvft
                rw [hlf] at hchain
                injection hchain with hgf
                rw [hgf] at hgv
                exact not_visFile_and_visDir f ⟨hvf, hgv⟩
              · have hceq' : fileCmp (contentAt sc m) (contentAt tc m) = false :=
                  Bool.not_eq_true _ ▸ hceq
                have := H_uf m ((mem_updateFiles sc tc hnsc hntc m).mpr ⟨hvfs, hvft, hceq'⟩)
                rw [hg] at this
                injection this with hgc
                obtain ⟨e, hle, hve⟩ := (visFileAt_spec sc m).mp hvfs
                rw [hle] at hgc
                have hgf : g.visFile = true := by
                  rw [hgc]
                  exact visFile_copy2Follow e hve
                exact not_visFile_and_visDir g ⟨hgf, hgv⟩
            · have hvft' : visFileAt tc m = false := Bool.not_eq_true _ ▸ hvft
              have := H_nf m ((mem_newFiles sc tc hnsc hntc m).mpr ⟨hvfs, hvft'⟩)
              rw [hg] at this
              injection this with hgc
              obtain ⟨e, hle, hve⟩ := (visFileAt_spec sc m).mp hvfs
              rw [hle] at hgc
              have hgf : g.visFile = true := by
                rw [hgc]
                exact hve
              exact not_visFile_and_visDir g ⟨hgf, hgv⟩
          · have hvfs' : visFileAt sc m = false := Bool.not_eq_true _ ▸ hvfs
            by_cases hvft : visFileAt tc m = true
            · have := H_rf m ((mem_removedFiles sc tc hnsc hntc m).mpr ⟨hvft, hvfs'⟩)
              rw [hg] at this
              exact absurd this (by simp)
            · have hvft' : visFileAt tc m = false := Bool.not_eq_true _ ▸ hvft
              by_cases hvdt : visDirAt tc m = true
              · have := H_rd m ((mem_removedDir sc tc hnsc hntc m).mpr ⟨hvdt, hvds'⟩)
                rw [hg] at this
                exact absurd this (by simp)
              · have hvdt' : visDirAt tc m = false := Bool.not_eq_true _ ▸ hvdt
                have := H_untouched m hvfs' hvft' hvds' hvdt'
                rw [hg] at this
                have : visDirAt tc m = true :=
                  (visDirAt_spec tc m).mpr ⟨g, this.symm, hgv⟩
                rw [hvdt'] at this
                exact absurd this (by simp)
      · -- entry-by-entry mirroring over the source listing
        apply mirrorsL_intro
        intro n e hmem
        have hle : lookup n sc = some e := lookup_eq_of_mem n e sc hnsc hmem
        constructor
        · intro hvf
          have hvfs : visFileAt sc n = true := (visFileAt_spec sc n).mpr ⟨e, hle, hvf⟩
          by_cases hvft : visFileAt tc n = true
          · by_cases hceq : fileCmp (contentAt sc n) (contentAt tc n) = true
            · obtain ⟨f, hlf, hvff⟩ := (visFileAt_spec tc n).mp hvft
              refine ⟨f, ?_, hvff, ?_⟩
              · rw [H_sharedeq n hvfs hvft hceq]
                exact hlf
              · have hc1 : contentAt sc n = e.contentOf := by
                  rw [contentAt, hle]
                  rfl
                have hc2 : contentAt tc n = f.contentOf := by
                  rw [contentAt, hlf]
                  rfl
                rw [← hc1, ← hc2]
                exact hceq
            · have hceq' : fileCmp (contentAt sc n) (contentAt tc n) = false :=
                Bool.not_eq_true _ ▸ hceq
              have hl6 := H_uf n
                ((mem_updateFiles sc tc hnsc hntc n).mpr ⟨hvfs, hvft, hceq'⟩)
              rw [hle] at hl6
              refine ⟨copy2Follow e, hl6, visFile_copy2Follow e hvf, ?_⟩
              rw [contentOf_copy2Follow]
              exact fileCmp_refl _
          · have hvft' : visFileAt tc n = false := Bool.not_eq_true _ ▸ hvft
            have hl6 := H_nf n ((mem_newFiles sc tc hnsc hntc n).mpr ⟨hvfs, hvft'⟩)
            rw [hle] at hl6
            exact ⟨e, hl6, hvf, fileCmp_refl _⟩
        · intro hvd
          have hvds : visDirAt sc n = true := (visDirAt_spec sc n).mpr ⟨e, hle, hvd⟩
          by_cases hvdt : visDirAt tc n = true
          · obtain ⟨r, hl6, _, hmir⟩ := H_ud n e hmem
              ((mem_updateDirs sc tc hnsc hntc n).mpr ⟨hvds, hvdt⟩)
            exact ⟨r, hl6, hmir⟩
          · have hvdt' : visDirAt tc n = false := Bool.not_eq_true _ ▸ hvdt
            obtain ⟨r, hl6, _, hmir⟩ := H_nd n e hmem
              ((mem_newDirs sc tc hnsc hntc n).mpr ⟨hvds, hvdt'⟩)
            exact ⟨r, hl6, hmir⟩

theorem upsert_eq_self (n : String) (e : Entry) :
    ∀ cs : Children, lookup n cs = some e → upsert n e cs = cs := by
  intro cs
  induction cs with
  | nil => simp [lookup]
  | cons hd rest ih =>
      obtain ⟨m, f⟩ := hd
      intro hl
      by_cases h : m = n
      · subst h
        rw [lookup, if_pos rfl] at hl
        injection hl with hfe
        rw [upsert, if_pos rfl, hfe]
      · rw [lookup, if_neg h] at hl
        rw [upsert, if_neg h, ih hl]

/-- After a mirroring pass, `dirCmp` classifies nothing as new, removed
or needing update: only the recursed-into set of shared directories
remains. -/
theorem mirrors_dirCmp_empty (sc tc : Children) (hnsc : nodupKeys sc = true)
    (hm : mirrors (.dir sc) (.dir tc) = true) :
    (dirCmpSets sc tc).newFiles = [] ∧ (dirCmpSets sc tc).newDirs = [] ∧
    (dirCmpSets sc tc).updateFiles = [] ∧ (dirCmpSets sc tc).removedFiles = [] ∧
    (dirCmpSets sc tc).removedDir = [] := by
  rw [mirrors_dir_eq, Bool.and_eq_true, Bool.and_eq_true] at hm
  obtain ⟨⟨hsub1, hsub2⟩, hml⟩ := hm
  have hsrcFile : ∀ n, n ∈ fileNames sc →
      ∃ e f, lookup n sc = some e ∧ e.visFile = true ∧ lookup n tc = some f ∧
        f.visFile = true ∧ fileCmp e.contentOf f.contentOf = true := by
    intro n hn
    obtain ⟨e, hmem, hve⟩ := (mem_fileNames sc n).mp hn
    obtain ⟨f, hlf, hvf, hcmp⟩ := (mirrorsL_spec sc tc hml n e hmem).1 hve
    exact ⟨e, f, lookup_eq_of_mem n e sc hnsc hmem, hve, hlf, hvf, hcmp⟩
  have hsrcDir : ∀ n, n ∈ dirNames sc → ∃ f, lookup n tc = some f ∧ f.visDir = true := by
    intro n hn
    obtain ⟨e, hmem, hve⟩ := (mem_dirNames sc n).mp hn
    obtain ⟨f, hlf, hmir⟩ := (mirrorsL_spec sc tc hml n e hmem).2 hve
    exact ⟨f, hlf, mirrors_visDir e f hmir⟩
  refine ⟨?_, ?_, ?_, ?_, ?_⟩
  · apply List.filter_eq_nil_iff.mpr
    intro n hn
    obtain ⟨e, f, _, _, hlf, hvf, _⟩ := hsrcFile n hn
    simp only [Bool.not_eq_true', Bool.not_eq_false]
    exact (contains_iff _ n).mpr ((mem_fileNames tc n).mpr ⟨f, lookup_mem n f tc hlf, hvf⟩)
  · apply List.filter_eq_nil_iff.mpr
    intro n hn
    obtain ⟨f, hlf, hvf⟩ := hsrcDir n hn
    simp only [Bool.not_eq_true', Bool.not_eq_false]
    exact (contains_iff _ n).mpr ((mem_dirNames tc n).mpr ⟨f, lookup_mem n f tc hlf, hvf⟩)
  · apply List.filter_eq_nil_iff.mpr
    intro n hn
    have hn2 := List.mem_filter.mp hn
    obtain ⟨e, f, hle, _, hlf, _, hcmp⟩ := hsrcFile n hn2.1
    simp only [Bool.not_eq_true', Bool.not_eq_false]
    have hc1 : contentAt sc n = e.contentOf := by
      rw [contentAt, hle]
      rfl
    have hc2 : contentAt tc n = f.contentOf := by
      rw [contentAt, hlf]
      rfl
    rw [hc1, hc2]
    exact hcmp
  · apply List.filter_eq_nil_iff.mpr
    intro n hn
    simp only [Bool.not_eq_true', Bool.not_eq_false]
    exact (contains_iff _ n).mpr (subKeys_spec _ _ hsub1 n hn)
  · apply List.filter_eq_nil_iff.mpr
    intro n hn
    simp only [Bool.not_eq_true', Bool.not_eq_false]
    exact (contains_iff _ n).mpr (subKeys_spec _ _ hsub2 n hn)

theorem syncDirs_nil_names (F : Faults) (p : List String) (create : Bool) :
    ∀ (l tc : Children), syncDirs F p [] create l tc = .ok (tc, []) := by
  intro l
  induction l with
  | nil => intro tc; rfl
  | cons hd rest ih =>
      obtain ⟨n, e⟩ := hd
      intro tc
      rw [syncDirs]
      simp only [List.contains_nil, Bool.false_eq_true, if_false]
      exact ih tc

theorem syncDirs_id (F : Faults) (p : List String) (names : List String) :
    ∀ (l tc : Children),
      (∀ n e, (n, e) ∈ l → names.contains n = true →
        ∃ f, lookup n tc = some f ∧ dirSyncE F (p ++ [n]) e f = .ok (f, [])) →
      syncDirs F p names false l tc = .ok (tc, []) := by
  intro l
  induction l with
  | nil => intro tc _; rfl
  | cons hd rest ih =>
      obtain ⟨n, e⟩ := hd
      intro tc Hrec
      rw [syncDirs]
      by_cases hc : names.contains n = true
      · obtain ⟨f, hlf, hrun⟩ := Hrec n e (List.mem_cons_self _ _) hc
        have htgt : (lookup n tc).getD .other = f := by
          rw [hlf]
          rfl
        have hup : upsert n f tc = tc := upsert_eq_self n f tc hlf
        simp only [hc, if_true, Bool.false_eq_true, if_false, htgt, hrun, hup,
          ih tc (fun m e' hm hcm => Hrec m e' (List.mem_cons_of_mem _ hm) hcm)]
        rfl
      · simp only [hc, Bool.false_eq_true, if_false]
        exact ih tc (fun m e' hm hcm => Hrec m e' (List.mem_cons_of_mem _ hm) hcm)

/-- A pass on an already-mirroring pair applies no operation and leaves
the replica exactly as it was. -/
theorem syncNoop : ∀ (N : Nat) (s t : Entry) (p : List String),
    Entry.size s ≤ N → Entry.wf s = true → Entry.wf t = true → mirrors s t = true →
    dirSyncE noFaults p s t = .ok (t, []) := by
  intro N
  induction N with
  | zero =>
      intro s t p hsize _ _ _
      have := size_pos s
      omega
  | succ N ih =>
      intro s t p hsize hwfs hwft hmir
      obtain ⟨sc, tc, hseq, hteq⟩ := mirrors_dirs s t hmir
      subst hseq
      subst hteq
      have hnsc : nodupKeys sc = true := ((wf_dir_iff sc).mp hwfs).1
      have hwlsc : wfL sc = true := ((wf_dir_iff sc).mp hwfs).2
      have hwltc : wfL tc = true := ((wf_dir_iff tc).mp hwft).2
      have hcmp : dirCmpE noFaults p (.dir sc) (.dir tc) = .ok (dirCmpSets sc tc) :=
        dirCmpE_ok noFaults p sc tc (fun _ => rfl) (fun _ => rfl)
      obtain ⟨hnf0, hnd0, huf0, hrf0, hrd0⟩ := mirrors_dirCmp_empty sc tc hnsc hmir
      have hml : mirrorsL sc tc = true := by
        rw [mirrors_dir_eq, Bool.and_eq_true, Bool.and_eq_true] at hmir
        exact hmir.2
      have hntc : nodupKeys tc = true := ((wf_dir_iff tc).mp hwft).1
      have hshared : syncDirs noFaults p (dirCmpSets sc tc).updateDirs false sc tc =
          .ok (tc, []) := by
        apply syncDirs_id
        intro n e hmem hcm
        have hud := (mem_updateDirs sc tc hnsc hntc n).mp ((contains_iff _ n).mp hcm)
        have hle : lookup n sc = some e := lookup_eq_of_mem n e sc hnsc hmem
        obtain ⟨e', hle', hve'⟩ := (visDirAt_spec sc n).mp hud.1
        rw [hle] at hle'
        injection hle' with hee
        subst hee
        obtain ⟨f, hlf, hmirf⟩ := (mirrorsL_spec sc tc hml n e hmem).2 hve'
        refine ⟨f, hlf, ?_⟩
        have hsz : Entry.size e ≤ N := by
          have := size_child_lt sc n e hmem
          omega
        exact ih e f (p ++ [n]) hsz (wf_of_mem sc n e hwlsc hmem)
          (wf_of_mem tc n f hwltc (lookup_mem n f tc hlf)) hmirf
      rw [dirSyncE, hcmp]
      simp only []
      rw [hnf0, hrf0, huf0, hnd0, hrd0]
      rw [show foldCopy noFaults p sc [] tc = (tc, []) from rfl]
      rw [show foldRemove noFaults p [] tc = (tc, []) from rfl]
      rw [show foldUpdate noFaults p sc [] tc = (tc, []) from rfl]
      rw [syncDirs_nil_names]
      simp [foldRmtree, hshared]

/-! ### Claim C1 — convergence -/

/-- C1 counterexample: with a source holding a single subdirectory and an
empty replica, one `dirSync` succeeds, but `dirCmp` afterwards does *not*
return all six sets empty: `updateDirs` (directories present in both,
unconditionally recursed into) contains `d`. -/
theorem claim_c1_counterexample :
    dirSyncE noFaults [] (.dir [("d", .dir [])]) (.dir []) =
      .ok (.dir [("d", .dir [])], [.mkdir ["d"]]) ∧
    dirCmpE noFaults [] (.dir [("d", .dir [])]) (.dir [("d", .dir [])]) =
      .ok ⟨[], [], [], ["d"], [], []⟩ ∧
    (⟨[], [], [], ["d"], [], []⟩ : DirDiff).updateDirs ≠ [] :=
  ⟨rfl, rfl, by decide⟩

/-- C1 amended: for well-formed trees with no kind clash (`compatible`),
one fault-free `dirSync` pass succeeds and afterwards `dirCmp` finds
nothing to create, update or delete: five of the six sets are empty, and
`updateDirs` is exactly the set of shared subdirectories — never empty
when the source has a subdirectory, since directories present in both are
unconditionally recursed into.  The replica is structurally and
content-identical to the source on visible entries (`mirrors`). -/
theorem claim_c1_convergence (s t : Entry) (p : List String)
    (hwfs : Entry.wf s = true) (hwft : Entry.wf t = true)
    (hcompat : compatible s t = true) :
    ∃ r tr, dirSyncE noFaults p s t = .ok (r, tr) ∧ mirrors s r = true ∧
      ∃ sc rc d, s = .dir sc ∧ r = .dir rc ∧
        dirCmpE noFaults p s r = .ok d ∧
        d.newFiles = [] ∧ d.newDirs = [] ∧ d.updateFiles = [] ∧
        d.removedFiles = [] ∧ d.removedDir = [] ∧
        d.updateDirs = (dirNames sc).filter (fun n => (dirNames rc).contains n) := by
  obtain ⟨r, tr, heq, hwfr, hmir⟩ :=
    syncMirrors (Entry.size s) s t p (le_refl _) hwfs hwft hcompat
  obtain ⟨sc, rc, hseq, hreq⟩ := mirrors_dirs s r hmir
  subst hseq
  subst hreq
  have hnsc : nodupKeys sc = true := ((wf_dir_iff sc).mp hwfs).1
  obtain ⟨h1, h2, h3, h4, h5⟩ := mirrors_dirCmp_empty sc rc hnsc hmir
  exact ⟨.dir rc, tr, heq, hmir, sc, rc, dirCmpSets sc rc, rfl, rfl,
    dirCmpE_ok noFaults p sc rc (fun _ => rfl) (fun _ => rfl),
    h1, h2, h3, h4, h5, rfl⟩

/-- Witness for C1 amended: source with one file and one directory,
replica empty. -/
theorem claim_c1_convergence_witness :
    (Entry.wf (.dir [("a", Entry.file [0]), ("d", Entry.dir [])]) = true ∧
      Entry.wf (.dir []) = true ∧
      compatible (.dir [("a", Entry.file [0]), ("d", Entry.dir [])]) (.dir []) = true) ∧
    (∃ r tr, dirSyncE noFaults []
        (.dir [("a", Entry.file [0]), ("d", Entry.dir [])]) (.dir []) = .ok (r, tr) ∧
      mirrors (.dir [("a", Entry.file [0]), ("d", Entry.dir [])]) r = true ∧
      ∃ sc rc d, (Entry.dir [("a", Entry.file [0]), ("d", Entry.dir [])]) = .dir sc ∧
        r = .dir rc ∧
        dirCmpE noFaults [] (.dir [("a", Entry.file [0]), ("d", Entry.dir [])]) r =
          .ok d ∧
        d.newFiles = [] ∧ d.newDirs = [] ∧ d.updateFiles = [] ∧
        d.removedFiles = [] ∧ d.removedDir = [] ∧
        d.updateDirs = (dirNames sc).filter (fun n => (dirNames rc).contains n)) :=
  ⟨⟨rfl, rfl, rfl⟩,
    claim_c1_convergence (.dir [("a", Entry.file [0]), ("d", Entry.dir [])]) (.dir [])
      [] rfl rfl rfl⟩

/-! ### Claim C2 — idempotence -/

/-- C2 counterexample: source has file `a`, replica has directory `a`.
The first pass copies the file *into* the directory and then removes the
whole directory, so the second pass is not a no-op: it applies a copy and
changes the replica. -/
theorem claim_c2_counterexample :
    dirSyncE noFaults [] (.dir [("a", .file [0])]) (.dir [("a", .dir [])]) =
      .ok (.dir [], [.copy ["a"], .rmtree ["a"]]) ∧
    dirSyncE noFaults [] (.dir [("a", .file [0])]) (.dir []) =
      .ok (.dir [("a", .file [0])], [.copy ["a"]]) ∧
    [Op.copy ["a"]] ≠ ([] : List Op) ∧
    Entry.dir [("a", Entry.file [0])] ≠ Entry.dir [] :=
  ⟨rfl, rfl, by decide, by simp⟩

/-- C2 amended: on well-formed trees without kind clashes, a second
fault-free pass immediately after a first one applies zero operations
(empty trace) and returns the replica unchanged. -/
theorem claim_c2_idempotence (s t r1 : Entry) (tr1 : List Op) (p : List String)
    (hwfs : Entry.wf s = true) (hwft : Entry.wf t = true)
    (hcompat : compatible s t = true)
    (hrun1 : dirSyncE noFaults p s t = .ok (r1, tr1)) :
    dirSyncE noFaults p s r1 = .ok (r1, []) := by
  obtain ⟨r, tr, heq, hwfr, hmir⟩ :=
    syncMirrors (Entry.size s) s t p (le_refl _) hwfs hwft hcompat
  rw [heq] at hrun1
  injection hrun1 with hpair
  have hr : r1 = r := (congrArg Prod.fst hpair).symm
  subst hr
  exact syncNoop (Entry.size s) s r1 p (le_refl _) hwfs hwfr hmir

/-- Witness for C2 amended: the second pass after mirroring `a` is empty. -/
theorem claim_c2_idempotence_witness :
    (Entry.wf (.dir [("a", Entry.file [0])]) = true ∧ Entry.wf (.dir []) = true ∧
      compatible (.dir [("a", Entry.file [0])]) (.dir []) = true ∧
      dirSyncE noFaults [] (.dir [("a", Entry.file [0])]) (.dir []) =
        .ok (.dir [("a", Entry.file [0])], [.copy ["a"]])) ∧
    dirSyncE noFaults [] (.dir [("a", Entry.file [0])])
      (.dir [("a", Entry.file [0])]) = .ok (.dir [("a", Entry.file [0])], []) :=
  ⟨⟨rfl, rfl, rfl, rfl⟩,
    claim_c2_idempotence (.dir [("a", Entry.file [0])]) (.dir [])
      (.dir [("a", Entry.file [0])]) [.copy ["a"]] [] rfl rfl rfl rfl⟩

/-! ### Claim C7 — fault isolation of the apply primitives -/

/-- With faults confined to the five apply primitives other than `mkdir`
(copy, file removal, both halves of update, tree removal), a pass on
compatible well-formed trees still runs to completion: those failures are
caught inside their `try/except` blocks and never abort the pass. -/
theorem syncRuns : ∀ (N : Nat) (s t : Entry) (p : List String) (F : Faults),
    Entry.size s ≤ N → Entry.wf s = true → Entry.wf t = true → compatible s t = true →
    (∀ q, F.unreadSrc q = false) → (∀ q, F.unreadDst q = false) →
    (∀ q, F.mkdirFail q = false) →
    ∃ r tr, dirSyncE F p s t = .ok (r, tr) ∧ Entry.wf r = true := by
  intro N
  induction N with
  | zero =>
      intro s t p F hsize _ _ _ _ _ _
      have := size_pos s
      omega
  | succ N ih =>
      intro s t p F hsize hwfs hwft hcompat hus hud hmk
      obtain ⟨sc, tc, hseq, hteq⟩ := compatible_dirs s t hcompat
      subst hseq
      subst hteq
      have hcomp : compatL sc tc = true := by
        rw [← compatible_dir_eq]
        exact hcompat
      have hnsc : nodupKeys sc = true := ((wf_dir_iff sc).mp hwfs).1
      have hwlsc : wfL sc = true := ((wf_dir_iff sc).mp hwfs).2
      have hntc : nodupKeys tc = true := ((wf_dir_iff tc).mp hwft).1
      have hwltc : wfL tc = true := ((wf_dir_iff tc).mp hwft).2
      have hwfctc : wfC tc = true := (wfC_iff_wf_dir tc).mpr hwft
      have hcmp : dirCmpE F p (.dir sc) (.dir tc) = .ok (dirCmpSets sc tc) :=
        dirCmpE_ok F p sc tc hus hud
      have hnup_nf : (dirCmpSets sc tc).newFiles.Nodup :=
        List.Nodup.filter _ (fileNames_nodup sc hnsc)
      have hnup_rf : (dirCmpSets sc tc).removedFiles.Nodup :=
        List.Nodup.filter _ (fileNames_nodup tc hntc)
      have hnup_uf : (dirCmpSets sc tc).updateFiles.Nodup :=
        List.Nodup.filter _ (List.Nodup.filter _ (fileNames_nodup sc hnsc))
      have hnup_rd : (dirCmpSets sc tc).removedDir.Nodup :=
        List.Nodup.filter _ (dirNames_nodup tc hntc)
      have KD1 : ∀ m, m ∈ (dirCmpSets sc tc).newFiles → lookup m tc = none := by
        intro m hm
        obtain ⟨h1, h2⟩ := (mem_newFiles sc tc hnsc hntc m).mp hm
        obtain ⟨e, hle, hve⟩ := (visFileAt_spec sc m).mp h1
        cases hl : lookup m tc with
        | none => rfl
        | some f =>
            have hvf := (compatL_spec sc tc hcomp m e (lookup_mem m e sc hle) f hl).1 hve
            have : visFileAt tc m = true := (visFileAt_spec tc m).mpr ⟨f, hl, hvf⟩
            rw [this] at h2
            exact absurd h2 (by simp)
      have KD2 : ∀ m, m ∈ (dirCmpSets sc tc).newDirs → lookup m tc = none := by
        intro m hm
        obtain ⟨h1, h2⟩ := (mem_newDirs sc tc hnsc hntc m).mp hm
        obtain ⟨e, hle, hve⟩ := (visDirAt_spec sc m).mp h1
        cases hl : lookup m tc with
        | none => rfl
        | some f =>
            have hvf := ((compatL_spec sc tc hcomp m e (lookup_mem m e sc hle) f hl).2 hve).1
            have : visDirAt tc m = true := (visDirAt_spec tc m).mpr ⟨f, hl, hvf⟩
            rw [this] at h2
            exact absurd h2 (by simp)
      set A1 := foldCopy F p sc (dirCmpSets sc tc).newFiles tc with hA1
      obtain ⟨hwf1, _⟩ := foldCopy_spec F p sc (dirCmpSets sc tc).newFiles tc
        hnup_nf KD1
        (fun m hm => by
          obtain ⟨h1, _⟩ := (mem_newFiles sc tc hnsc hntc m).mp hm
          obtain ⟨e, hle, _⟩ := (visFileAt_spec sc m).mp h1
          rw [hle]
          exact wf_of_mem sc m e hwlsc (lookup_mem m e sc hle))
        hwfctc
      set A2 := foldRemove F p (dirCmpSets sc tc).removedFiles A1.1 with hA2
      obtain ⟨hwf2, _⟩ := foldRemove_spec F p (dirCmpSets sc tc).removedFiles
        A1.1 hnup_rf hwf1
      set A3 := foldUpdate F p sc (dirCmpSets sc tc).updateFiles A2.1 with hA3
      obtain ⟨hwf3, _⟩ := foldUpdate_spec F p sc (dirCmpSets sc tc).updateFiles
        A2.1 hnup_uf
        (fun m hm => by
          obtain ⟨h1, _, _⟩ := (mem_updateFiles sc tc hnsc hntc m).mp hm
          obtain ⟨e, hle, _⟩ := (visFileAt_spec sc m).mp h1
          rw [hle]
          exact wf_copy2Follow e (wf_of_mem sc m e hwlsc (lookup_mem m e sc hle)))
        hwf2
      obtain ⟨tc4, tr4, hs4, hwf4, hpres4, _⟩ :=
        syncDirs_new_spec F p (dirCmpSets sc tc).newDirs
          (fun _ _ => True) hmk sc A3.1 hnsc
          (fun n e hmem hcm => by
            have hnd := (mem_newDirs sc tc hnsc hntc n).mp
              ((contains_iff _ n).mp hcm)
            have hle : lookup n sc = some e := lookup_eq_of_mem n e sc hnsc hmem
            obtain ⟨e', hle', hve'⟩ := (visDirAt_spec sc n).mp hnd.1
            rw [hle] at hle'
            injection hle' with hee
            subst hee
            obtain ⟨ec, heceq⟩ := visDir_dir e hve'
            have hsz : Entry.size e ≤ N := by
              have := size_child_lt sc n e hmem
              omega
            obtain ⟨r, tr, hok, hwfr⟩ := ih e (.dir []) (p ++ [n]) F hsz
              (wf_of_mem sc n e hwlsc hmem) rfl
              (by rw [heceq]; exact compatible_empty ec) hus hud hmk
            exact ⟨r, tr, hok, hwfr, trivial⟩)
          (fun n e hmem hcm => by
            have hnd := (mem_newDirs sc tc hnsc hntc n).mp
              ((contains_iff _ n).mp hcm)
            have hvds : visDirAt sc n = true := hnd.1
            have hnotf_s : visFileAt sc n = false := visFileAt_false_of_dir sc n hvds
            have hnotf_t : lookup n tc = none := KD2 n ((mem_newDirs sc tc hnsc hntc n).mpr hnd)
            have h1 : lookup n A3.1 = lookup n A2.1 := by
              apply foldUpdate_preserve
              intro hmem2
              have := ((mem_updateFiles sc tc hnsc hntc n).mp hmem2).1
              rw [hnotf_s] at this
              exact absurd this (by simp)
            have h2 : lookup n A2.1 = lookup n A1.1 := by
              apply foldRemove_preserve
              intro hmem2
              have := ((mem_removedFiles sc tc hnsc hntc n).mp hmem2).1
              rw [visFileAt, hnotf_t] at this
              exact absurd this (by simp [Entry.visFile])
            have h3 : lookup n A1.1 = lookup n tc := by
              apply foldCopy_preserve
              intro hmem2
              have := ((mem_newFiles sc tc hnsc hntc n).mp hmem2).1
              rw [hnotf_s] at this
              exact absurd this (by simp)
            rw [h1, h2, h3]
            exact hnotf_t)
          hwf3
      set A5 := foldRmtree F p (dirCmpSets sc tc).removedDir tc4 with hA5
      obtain ⟨hwf5, _⟩ := foldRmtree_spec F p (dirCmpSets sc tc).removedDir
        tc4 hnup_rd hwf4
      obtain ⟨tc6, tr6, hs6, hwf6, _, _⟩ :=
        syncDirs_shared_spec F p (dirCmpSets sc tc).updateDirs
          (fun _ _ => True) sc A5.1 hnsc
          (fun n e hmem hcm => by
            have hud2 := (mem_updateDirs sc tc hnsc hntc n).mp
              ((contains_iff _ n).mp hcm)
            have hle : lookup n sc = some e := lookup_eq_of_mem n e sc hnsc hmem
            obtain ⟨e', hle', hve'⟩ := (visDirAt_spec sc n).mp hud2.1
            rw [hle] at hle'
            injection hle' with hee
            subst hee
            obtain ⟨f, hlf, hvf⟩ := (visDirAt_spec tc n).mp hud2.2
            have hcf := (compatL_spec sc tc hcomp n e hmem f hlf).2 hve'
            have hnotf_s : visFileAt sc n = false := visFileAt_false_of_dir sc n hud2.1
            have hnotf_t : visFileAt tc n = false := visFileAt_false_of_dir tc n hud2.2
            have h5 : lookup n A5.1 = lookup n tc4 := by
              apply foldRmtree_preserve
              intro hmem2
              have := ((mem_removedDir sc tc hnsc hntc n).mp hmem2).2
              rw [hud2.1] at this
              exact absurd this (by simp)
            have h4 : lookup n tc4 = lookup n A3.1 := by
              apply hpres4
              intro e2 ⟨_, hcm2⟩
              have := ((mem_newDirs sc tc hnsc hntc n).mp ((contains_iff _ n).mp hcm2)).2
              rw [hud2.2] at this
              exact absurd this (by simp)
            have h3 : lookup n A3.1 = lookup n A2.1 := by
              apply foldUpdate_preserve
              intro hmem2
              have := ((mem_updateFiles sc tc hnsc hntc n).mp hmem2).1
              rw [hnotf_s] at this
              exact absurd this (by simp)
            have h2 : lookup n A2.1 = lookup n A1.1 := by
              apply foldRemove_preserve
              intro hmem2
              have := ((mem_removedFiles sc tc hnsc hntc n).mp hmem2).1
              rw [hnotf_t] at this
              exact absurd this (by simp)
            have h1 : lookup n A1.1 = lookup n tc := by
              apply foldCopy_preserve
              intro hmem2
              have := ((mem_newFiles sc tc hnsc hntc n).mp hmem2).1
              rw [hnotf_s] at this
              exact absurd this (by simp)
            refine ⟨f, by rw [h5, h4, h3, h2, h1]; exact hlf, ?_⟩
            have hsz : Entry.size e ≤ N := by
              have := size_child_lt sc n e hmem
              omega
            obtain ⟨r, tr, hok, hwfr⟩ := ih e f (p ++ [n]) F hsz
              (wf_of_mem sc n e hwlsc hmem)
              (wf_of_mem tc n f hwltc (lookup_mem n f tc hlf))
              hcf.2 hus hud hmk
            exact ⟨r, tr, hok, hwfr, trivial⟩)
          hwf5
      have heq : dirSyncE F p (.dir sc) (.dir tc) =
          .ok (.dir tc6, A1.2 ++ A2.2 ++ A3.2 ++ tr4 ++ A5.2 ++ tr6) := by
        rw [dirSyncE, hcmp]
        simp only []
        rw [← hA1, ← hA2, ← hA3, hs4]
        simp only []
        rw [← hA5, hs6]
      exact ⟨.dir tc6, A1.2 ++ A2.2 ++ A3.2 ++ tr4 ++ A5.2 ++ tr6, heq,
        (wfC_iff_wf_dir tc6).mp hwf6⟩

/-- The fault oracle of the C7 counterexample: the source file `a` cannot
be read when `digest` opens it during the diff computation. -/
def readFault : Faults := { noFaults with unreadSrc := fun q => q == ["a"] }

/-- C7 counterexample: an unreadable file during fingerprinting in
`dirCmp` is NOT caught anywhere — the exception propagates out of
`dirSync` and the whole pass aborts, leaving the sibling file `b`
unprocessed (the replica still has the stale content for `b`). -/
theorem claim_c7_counterexample :
    dirSyncE readFault []
      (.dir [("a", .file [1]), ("b", .file [2])])
      (.dir [("a", .file [3]), ("b", .file [4])]) = .error () :=
  rfl

/-- C7 amended: failures inside the five apply primitives (`copyFile`,
`removeFile`, both steps of `updateFile`, `removeDir`) are caught by
their own `try/except` and never abort the pass: with any such faults the
pass still completes on compatible well-formed trees.  But two kinds of
per-path failure do propagate and abort the whole pass: a read failure
while fingerprinting a shared file inside `dirCmp`, and a failed
`os.mkdir` (whose subsequent recursion hits a missing directory and makes
`iterdir` raise). -/
theorem claim_c7_fault_isolation (s t : Entry) (p : List String) (F : Faults)
    (hwfs : Entry.wf s = true) (hwft : Entry.wf t = true)
    (hcompat : compatible s t = true)
    (hus : ∀ q, F.unreadSrc q = false) (hud : ∀ q, F.unreadDst q = false)
    (hmk : ∀ q, F.mkdirFail q = false) :
    ∃ r tr, dirSyncE F p s t = .ok (r, tr) :=
  match syncRuns (Entry.size s) s t p F (le_refl _) hwfs hwft hcompat hus hud hmk with
  | ⟨r, tr, hok, _⟩ => ⟨r, tr, hok⟩

/-- The fault oracle of the C7 witness: every copy, remove, update and
rmtree fails; only reads and mkdir succeed. -/
def applyFaults : Faults :=
  { noFaults with
      copyFail := fun _ => true
      removeFail := fun _ => true
      updRemoveFail := fun _ => true
      rmtreeFail := fun _ => true }

/-- Witness for C7 amended: the pass completes even though every apply
primitive fails. -/
theorem claim_c7_fault_isolation_witness :
    (Entry.wf (.dir [("a", Entry.file [0]), ("d", Entry.dir [])]) = true ∧
      Entry.wf (.dir [("x", Entry.file [1]), ("g", Entry.dir [])]) = true ∧
      compatible (.dir [("a", Entry.file [0]), ("d", Entry.dir [])])
        (.dir [("x", Entry.file [1]), ("g", Entry.dir [])]) = true ∧
      (∀ q, applyFaults.unreadSrc q = false) ∧
      (∀ q, applyFaults.unreadDst q = false) ∧
      (∀ q, applyFaults.mkdirFail q = false)) ∧
    (∃ r tr, dirSyncE applyFaults []
      (.dir [("a", Entry.file [0]), ("d", Entry.dir [])])
      (.dir [("x", Entry.file [1]), ("g", Entry.dir [])]) = .ok (r, tr)) :=
  ⟨⟨rfl, rfl, rfl, fun _ => rfl, fun _ => rfl, fun _ => rfl⟩,
    claim_c7_fault_isolation (.dir [("a", Entry.file [0]), ("d", Entry.dir [])])
      (.dir [("x", Entry.file [1]), ("g", Entry.dir [])]) [] applyFaults
      rfl rfl rfl (fun _ => rfl) (fun _ => rfl) (fun _ => rfl)⟩

/-! ### Traces: which operations a pass logs, and where -/

/-- An operation applied strictly below level `p`. -/
def deeper (p : List String) (op : Op) : Prop :=
  ∃ n rest, rest ≠ [] ∧ op.path = p ++ n :: rest

theorem copyFileP_trace (F : Faults) (p : List String) (n : String) (e : Entry)
    (tc : Children) : ∀ op ∈ (copyFileP F p n e tc).2, op = Op.copy (p ++ [n]) := by
  intro op hop
  by_cases hf : F.copyFail (p ++ [n]) = true
  · simp [copyFileP, hf] at hop
  · cases hl : lookup n tc with
    | none =>
        simp [copyFileP, hf, hl] at hop
        exact hop
    | some f =>
        cases f with
        | dir dc =>
            simp [copyFileP, hf, hl] at hop
            exact hop
        | file c => simp [copyFileP, hf, hl] at hop
        | symlink r => simp [copyFileP, hf, hl] at hop
        | other => simp [copyFileP, hf, hl] at hop

theorem removeFileP_trace (F : Faults) (p : List String) (n : String)
    (tc : Children) : ∀ op ∈ (removeFileP F p n tc).2, op = Op.removeF (p ++ [n]) := by
  intro op hop
  by_cases hf : F.removeFail (p ++ [n]) = true
  · simp [removeFileP, hf] at hop
  · simp [removeFileP, hf] at hop
    exact hop

theorem updateFileP_trace (F : Faults) (p : List String) (n : String) (e : Entry)
    (tc : Children) : ∀ op ∈ (updateFileP F p n e tc).2, op = Op.update (p ++ [n]) := by
  intro op hop
  by_cases h1 : F.updRemoveFail (p ++ [n]) = true
  · simp [updateFileP, h1] at hop
  · by_cases h2 : F.updCopyFail (p ++ [n]) = true
    · simp [updateFileP, h1, h2] at hop
    · simp [updateFileP, h1, h2] at hop
      exact hop

theorem createDirP_trace (F : Faults) (p : List String) (n : String)
    (tc : Children) : ∀ op ∈ (createDirP F p n tc).2, op = Op.mkdir (p ++ [n]) := by
  intro op hop
  cases hl : lookup n tc with
  | some f => simp [createDirP, hl] at hop
  | none =>
      by_cases hf : F.mkdirFail (p ++ [n]) = true
      · simp [createDirP, hl, hf] at hop
      · simp [createDirP, hl, hf] at hop
        exact hop

theorem rmtreeP_trace (F : Faults) (p : List String) (n : String)
    (tc : Children) : ∀ op ∈ (rmtreeP F p n tc).2, op = Op.rmtree (p ++ [n]) := by
  intro op hop
  by_cases hf : F.rmtreeFail (p ++ [n]) = true
  · simp [rmtreeP, hf] at hop
  · simp [rmtreeP, hf] at hop
    exact hop

theorem foldCopy_trace (F : Faults) (p : List String) (sc : Children) :
    ∀ (names : List String) (tc : Children), ∀ op ∈ (foldCopy F p sc names tc).2,
      ∃ n, n ∈ names ∧ op = Op.copy (p ++ [n]) := by
  intro names
  induction names with
  | nil => simp [foldCopy]
  | cons n rest ih =>
      intro tc op hop
      have hsplit : (foldCopy F p sc (n :: rest) tc).2 =
          (copyFileP F p n ((lookup n sc).getD .other) tc).2 ++
          (foldCopy F p sc rest (copyFileP F p n ((lookup n sc).getD .other) tc).1).2 := rfl
      rw [hsplit] at hop
      rcases List.mem_append.mp hop with h | h
      · exact ⟨n, List.mem_cons_self _ _, copyFileP_trace F p n _ tc op h⟩
      · obtain ⟨m, hm, he⟩ := ih _ op h
        exact ⟨m, List.mem_cons_of_mem _ hm, he⟩

theorem foldRemove_trace (F : Faults) (p : List String) :
    ∀ (names : List String) (tc : Children), ∀ op ∈ (foldRemove F p names tc).2,
      ∃ n, n ∈ names ∧ op = Op.removeF (p ++ [n]) := by
  intro names
  induction names with
  | nil => simp [foldRemove]
  | cons n rest ih =>
      intro tc op hop
      have hsplit : (foldRemove F p (n :: rest) tc).2 =
          (removeFileP F p n tc).2 ++
          (foldRemove F p rest (removeFileP F p n tc).1).2 := rfl
      rw [hsplit] at hop
      rcases List.mem_append.mp hop with h | h
      · exact ⟨n, List.mem_cons_self _ _, removeFileP_trace F p n tc op h⟩
      · obtain ⟨m, hm, he⟩ := ih _ op h
        exact ⟨m, List.mem_cons_of_mem _ hm, he⟩

theorem foldUpdate_trace (F : Faults) (p : List String) (sc : Children) :
    ∀ (names : List String) (tc : Children), ∀ op ∈ (foldUpdate F p sc names tc).2,
      ∃ n, n ∈ names ∧ op = Op.update (p ++ [n]) := by
  intro names
  induction names with
  | nil => simp [foldUpdate]
  | cons n rest ih =>
      intro tc op hop
      have hsplit : (foldUpdate F p sc (n :: rest) tc).2 =
          (updateFileP F p n ((lookup n sc).getD .other) tc).2 ++
          (foldUpdate F p sc rest (updateFileP F p n ((lookup n sc).getD .other) tc).1).2 := rfl
      rw [hsplit] at hop
      rcases List.mem_append.mp hop with h | h
      · exact ⟨n, List.mem_cons_self _ _, updateFileP_trace F p n _ tc op h⟩
      · obtain ⟨m, hm, he⟩ := ih _ op h
        exact ⟨m, List.mem_cons_of_mem _ hm, he⟩

theorem foldRmtree_trace (F : Faults) (p : List String) :
    ∀ (names : List String) (tc : Children), ∀ op ∈ (foldRmtree F p names tc).2,
      ∃ n, n ∈ names ∧ op = Op.rmtree (p ++ [n]) := by
  intro names
  induction names with
  | nil => simp [foldRmtree]
  | cons n rest ih =>
      intro tc op hop
      have hsplit : (foldRmtree F p (n :: rest) tc).2 =
          (rmtreeP F p n tc).2 ++
          (foldRmtree F p rest (rmtreeP F p n tc).1).2 := rfl
      rw [hsplit] at hop
      rcases List.mem_append.mp hop with h | h
      · exact ⟨n, List.mem_cons_self _ _, rmtreeP_trace F p n tc op h⟩
      · obtain ⟨m, hm, he⟩ := ih _ op h
        exact ⟨m, List.mem_cons_of_mem _ hm, he⟩

theorem sharedUpdate_ok_inv (F : Faults) (p : List String) (sc tc : Children) :
    ∀ (names : List String) (u : List String),
      sharedUpdate F p sc tc names = .ok u →
      u = names.filter (fun n => !(fileCmp (contentAt sc n) (contentAt tc n))) := by
  intro names
  induction names with
  | nil =>
      intro u h
      injection h with h
      rw [← h]
      rfl
  | cons n rest ih =>
      intro u h
      rw [sharedUpdate] at h
      by_cases hf : (F.unreadSrc (p ++ [n]) || F.unreadDst (p ++ [n])) = true
      · rw [if_pos hf] at h
        exact absurd h (by simp)
      · rw [if_neg hf] at h
        cases hr : sharedUpdate F p sc tc rest with
        | error u2 =>
            rw [hr] at h
            exact absurd h (by simp)
        | ok rr =>
            rw [hr] at h
            rw [List.filter_cons]
            simp only [show ∀ (cs : Children) (m : String),
                ((lookup m cs).getD Entry.other).contentOf = contentAt cs m from
              fun _ _ => rfl] at h
            by_cases hc : fileCmp (contentAt sc n) (contentAt tc n) = true
            · rw [if_pos hc] at h
              injection h with h
              simp [hc, ← h, ih rr hr]
            · rw [if_neg hc] at h
              injection h with h
              have hc' : fileCmp (contentAt sc n) (contentAt tc n) = false :=
                Bool.not_eq_true _ ▸ hc
              simp [hc', ← h, ih rr hr]

theorem dirCmpE_ok_inv (F : Faults) (p : List String) (sc tc : Children) (d : DirDiff)
    (h : dirCmpE F p (.dir sc) (.dir tc) = .ok d) : d = dirCmpSets sc tc := by
  rw [dirCmpE] at h
  cases hsu : sharedUpdate F p sc tc
      ((fileNames sc).filter (fun n => (fileNames tc).contains n)) with
  | error u =>
      rw [hsu] at h
      exact absurd h (by simp [Except.map])
  | ok u =>
      rw [hsu] at h
      simp only [Except.map] at h
      injection h with h
      rw [← h, sharedUpdate_ok_inv F p sc tc _ u hsu]
      rfl

/-- Decomposition of a successful `dirSync` run into its six stages. -/
theorem dirSyncE_run (F : Faults) (p : List String) (sc tc : Children) (r : Entry)
    (tr : List Op) (h : dirSyncE F p (.dir sc) (.dir tc) = .ok (r, tr)) :
    dirCmpE F p (.dir sc) (.dir tc) = .ok (dirCmpSets sc tc) ∧
    ∃ tc4 tr4 tc6 tr6,
      syncDirs F p (dirCmpSets sc tc).newDirs true sc
        (foldUpdate F p sc (dirCmpSets sc tc).updateFiles
          (foldRemove F p (dirCmpSets sc tc).removedFiles
            (foldCopy F p sc (dirCmpSets sc tc).newFiles tc).1).1).1 = .ok (tc4, tr4) ∧
      syncDirs F p (dirCmpSets sc tc).updateDirs false sc
        (foldRmtree F p (dirCmpSets sc tc).removedDir tc4).1 = .ok (tc6, tr6) ∧
      r = .dir tc6 ∧
      tr = (foldCopy F p sc (dirCmpSets sc tc).newFiles tc).2 ++
        (foldRemove F p (dirCmpSets sc tc).removedFiles
          (foldCopy F p sc (dirCmpSets sc tc).newFiles tc).1).2 ++
        (foldUpdate F p sc (dirCmpSets sc tc).updateFiles
          (foldRemove F p (dirCmpSets sc tc).removedFiles
            (foldCopy F p sc (dirCmpSets sc tc).newFiles tc).1).1).2 ++
        tr4 ++
        (foldRmtree F p (dirCmpSets sc tc).removedDir tc4).2 ++ tr6 := by
  rw [dirSyncE] at h
  cases hcmp : dirCmpE F p (.dir sc) (.dir tc) with
  | error u =>
      rw [hcmp] at h
      exact absurd h (by simp)
  | ok d =>
      have hd := dirCmpE_ok_inv F p sc tc d hcmp
      subst hd
      rw [hcmp] at h
      simp only [] at h
      cases hs4 : syncDirs F p (dirCmpSets sc tc).newDirs true sc
          (foldUpdate F p sc (dirCmpSets sc tc).updateFiles
            (foldRemove F p (dirCmpSets sc tc).removedFiles
              (foldCopy F p sc (dirCmpSets sc tc).newFiles tc).1).1).1 with
      | error u =>
          rw [hs4] at h
          exact absurd h (by simp)
      | ok a4 =>
          rw [hs4] at h
          simp only [] at h
          cases hs6 : syncDirs F p (dirCmpSets sc tc).updateDirs false sc
              (foldRmtree F p (dirCmpSets sc tc).removedDir a4.1).1 with
          | error u =>
              rw [hs6] at h
              exact absurd h (by simp)
          | ok a6 =>
              rw [hs6] at h
              simp only [] at h
              injection h with h
              refine ⟨rfl, a4.1, a4.2, a6.1, a6.2, rfl, hs6,
                (congrArg Prod.fst h).symm, ?_⟩
              have := (congrArg Prod.snd h).symm
              simpa using this

/-- Operations of the two directory-recursion loops: each is either a
`mkdir` at the current level or comes from a recursive pass below. -/
theorem syncDirs_trace (F : Faults) (p : List String) (names : List String)
    (create : Bool) :
    ∀ (l tc tc2 : Children) (tr : List Op),
      syncDirs F p names create l tc = .ok (tc2, tr) →
      (∀ n e, (n, e) ∈ l → ∀ (t' r' : Entry) (tr' : List Op),
        dirSyncE F (p ++ [n]) e t' = .ok (r', tr') →
        ∀ op ∈ tr', ∃ m rest, op.path = (p ++ [n]) ++ m :: rest) →
      ∀ op ∈ tr, (create = true ∧ ∃ n, op = Op.mkdir (p ++ [n])) ∨ deeper p op := by
  intro l
  induction l with
  | nil =>
      intro tc tc2 tr h _ op hop
      injection h with h
      have := (congrArg Prod.snd h).symm
      simp at this
      rw [this] at hop
      exact absurd hop (by simp)
  | cons hd rest ih =>
      obtain ⟨n, e⟩ := hd
      intro tc tc2 tr h Hrec op hop
      rw [syncDirs] at h
      by_cases hc : names.contains n = true
      · simp only [hc, if_true] at h
        cases hrun : dirSyncE F (p ++ [n]) e
            ((lookup n (if create = true then createDirP F p n tc else (tc, [])).1).getD
              .other) with
        | error u =>
            rw [hrun] at h
            exact absurd h (by simp)
        | ok pr =>
            obtain ⟨r', tr'⟩ := pr
            rw [hrun] at h
            simp only [] at h
            cases hs2 : syncDirs F p names create rest
                (upsert n r' (if create = true then createDirP F p n tc else (tc, [])).1) with
            | error u =>
                rw [hs2] at h
                exact absurd h (by simp)
            | ok pr2 =>
                obtain ⟨tc3, tr3⟩ := pr2
                rw [hs2] at h
                simp only [] at h
                injection h with h
                have htr := (congrArg Prod.snd h).symm
                simp only [] at htr
                rw [htr] at hop
                rcases List.mem_append.mp hop with hop1 | hop1
                · rcases List.mem_append.mp hop1 with hop2 | hop2
                  · -- op from the createDir step
                    cases create with
                    | true =>
                        left
                        exact ⟨rfl, n, createDirP_trace F p n tc op (by simpa using hop2)⟩
                    | false =>
                        exact absurd (show op ∈ ([] : List Op) from hop2)
                          (List.not_mem_nil op)
                  · -- op from the recursive pass
                    right
                    obtain ⟨m, rest2, hpath⟩ :=
                      Hrec n e (List.mem_cons_self _ _) _ _ _ hrun op hop2
                    refine ⟨n, m :: rest2, by simp, ?_⟩
                    rw [hpath, List.append_assoc]
                    rfl
                · -- op from the remaining entries
                  exact ih _ tc3 tr3 hs2
                    (fun m e' hm => Hrec m e' (List.mem_cons_of_mem _ hm)) op hop1
      · simp only [hc, Bool.false_eq_true, if_false] at h
        exact ih tc tc2 tr h
          (fun m e' hm => Hrec m e' (List.mem_cons_of_mem _ hm)) op hop

/-- Every operation a pass applies lies strictly below the pass's root. -/
theorem dirSyncE_paths : ∀ (N : Nat) (F : Faults) (s t : Entry) (p : List String)
    (r : Entry) (tr : List Op), Entry.size s ≤ N →
    dirSyncE F p s t = .ok (r, tr) →
    ∀ op ∈ tr, ∃ n rest, op.path = p ++ n :: rest := by
  intro N
  induction N with
  | zero =>
      intro F s t p r tr hsize
      have := size_pos s
      omega
  | succ N ih =>
      intro F s t p r tr hsize h op hop
      match s, t with
      | .file c, t => simp [dirSyncE] at h
      | .symlink c, t => simp [dirSyncE] at h
      | .other, t => simp [dirSyncE] at h
      | .dir sc, .file c => simp [dirSyncE] at h
      | .dir sc, .symlink c => simp [dirSyncE] at h
      | .dir sc, .other => simp [dirSyncE] at h
      | .dir sc, .dir tc =>
        obtain ⟨hcmp, tc4, tr4, tc6, tr6, hs4, hs6, hr, htr⟩ :=
          dirSyncE_run F p sc tc r tr h
        have Hrec : ∀ n e, (n, e) ∈ sc → ∀ (t' r' : Entry) (tr' : List Op),
            dirSyncE F (p ++ [n]) e t' = .ok (r', tr') →
            ∀ op2 ∈ tr', ∃ m rest, op2.path = (p ++ [n]) ++ m :: rest := by
          intro n e hmem t' r' tr' hrun op2 hop2
          have hsz : Entry.size e ≤ N := by
            have := size_child_lt sc n e hmem
            omega
          exact ih F e t' (p ++ [n]) r' tr' hsz hrun op2 hop2
        rw [htr] at hop
        have hlevel : ∀ (m : String), Op.path (Op.copy (p ++ [m])) = p ++ m :: [] ∧
            Op.path (Op.removeF (p ++ [m])) = p ++ m :: [] ∧
            Op.path (Op.update (p ++ [m])) = p ++ m :: [] ∧
            Op.path (Op.mkdir (p ++ [m])) = p ++ m :: [] ∧
            Op.path (Op.rmtree (p ++ [m])) = p ++ m :: [] := by
          intro m
          simp [Op.path]
        rcases List.mem_append.mp hop with h5 | h6
        rcases List.mem_append.mp h5 with h4 | h5
        rcases List.mem_append.mp h4 with h3 | h4
        rcases List.mem_append.mp h3 with h2 | h3
        rcases List.mem_append.mp h2 with h1 | h2
        · obtain ⟨m, _, he⟩ := foldCopy_trace F p sc _ tc op h1
          exact ⟨m, [], by rw [he]; exact (hlevel m).1⟩
        · obtain ⟨m, _, he⟩ := foldRemove_trace F p _ _ op h2
          exact ⟨m, [], by rw [he]; exact (hlevel m).2.1⟩
        · obtain ⟨m, _, he⟩ := foldUpdate_trace F p sc _ _ op h3
          exact ⟨m, [], by rw [he]; exact (hlevel m).2.2.1⟩
        · rcases syncDirs_trace F p _ true sc _ tc4 tr4 hs4 Hrec op h4 with hmk | hdeep
          · obtain ⟨_, m, he⟩ := hmk
            exact ⟨m, [], by rw [he]; exact (hlevel m).2.2.2.1⟩
          · obtain ⟨m, rest2, _, hpath⟩ := hdeep
            exact ⟨m, rest2, hpath⟩
        · obtain ⟨m, _, he⟩ := foldRmtree_trace F p _ _ op h5
          exact ⟨m, [], by rw [he]; exact (hlevel m).2.2.2.2⟩
        · rcases syncDirs_trace F p _ false sc _ tc6 tr6 hs6 Hrec op h6 with hmk | hdeep
          · obtain ⟨_, m, he⟩ := hmk
            exact ⟨m, [], by rw [he]; exact (hlevel m).2.2.2.1⟩
          · obtain ⟨m, rest2, _, hpath⟩ := hdeep
            exact ⟨m, rest2, hpath⟩

/-! ### Claim C4 — order of operations -/

/-- C4 counterexample: with a removed file `x` and a new directory `d` at
the same level, the pass deletes `x` BEFORE it creates `d` — a deletion
runs before a creation, contradicting the claimed
creations-before-deletions order. -/
theorem claim_c4_counterexample :
    dirSyncE noFaults [] (.dir [("d", .dir [])]) (.dir [("x", .file [0])]) =
      .ok (.dir [("d", .dir [])], [.removeF ["x"], .mkdir ["d"]]) ∧
    ∃ pre mid post, [Op.removeF ["x"], Op.mkdir ["d"]] =
      pre ++ Op.removeF ["x"] :: mid ++ Op.mkdir ["d"] :: post :=
  ⟨rfl, ⟨[], [], [], rfl⟩⟩

/-- C4 amended: every successful pass applies operations at each level in
the order new-file copies, removed-file deletions, file updates,
new-directory creations interleaved with the recursion populating each
new directory, removed-directory deletions, and finally the recursion
into shared subdirectories.  Hence all operations of the level precede
every operation inside shared subdirectories, and new files are copied
before any deletion — but removed files are deleted *before* new
directories are created, and a new directory's subtree is populated
before removed directories are deleted, refuting the claimed
all-creations-before-all-deletions order. -/
theorem claim_c4_operation_order (F : Faults) (p : List String) (s t r : Entry)
    (tr : List Op) (h : dirSyncE F p s t = .ok (r, tr)) :
    ∃ t1 t2 t3 t4 t5 t6, tr = t1 ++ t2 ++ t3 ++ t4 ++ t5 ++ t6 ∧
      (∀ op ∈ t1, ∃ n, op = Op.copy (p ++ [n])) ∧
      (∀ op ∈ t2, ∃ n, op = Op.removeF (p ++ [n])) ∧
      (∀ op ∈ t3, ∃ n, op = Op.update (p ++ [n])) ∧
      (∀ op ∈ t4, (∃ n, op = Op.mkdir (p ++ [n])) ∨ deeper p op) ∧
      (∀ op ∈ t5, ∃ n, op = Op.rmtree (p ++ [n])) ∧
      (∀ op ∈ t6, deeper p op) := by
  match s, t with
  | .file c, t => simp [dirSyncE] at h
  | .symlink c, t => simp [dirSyncE] at h
  | .other, t => simp [dirSyncE] at h
  | .dir sc, .file c => simp [dirSyncE] at h
  | .dir sc, .symlink c => simp [dirSyncE] at h
  | .dir sc, .other => simp [dirSyncE] at h
  | .dir sc, .dir tc =>
    obtain ⟨hcmp, tc4, tr4, tc6, tr6, hs4, hs6, hr, htr⟩ :=
      dirSyncE_run F p sc tc r tr h
    have Hrec : ∀ n e, (n, e) ∈ sc → ∀ (t' r' : Entry) (tr' : List Op),
        dirSyncE F (p ++ [n]) e t' = .ok (r', tr') →
        ∀ op2 ∈ tr', ∃ m rest, op2.path = (p ++ [n]) ++ m :: rest := by
      intro n e hmem t' r' tr' hrun op2 hop2
      exact dirSyncE_paths (Entry.size e) F e t' (p ++ [n]) r' tr' (le_refl _)
        hrun op2 hop2
    refine ⟨_, _, _, tr4, _, tr6, htr, ?_, ?_, ?_, ?_, ?_, ?_⟩
    · intro op hop
      obtain ⟨m, _, he⟩ := foldCopy_trace F p sc _ tc op hop
      exact ⟨m, he⟩
    · intro op hop
      obtain ⟨m, _, he⟩ := foldRemove_trace F p _ _ op hop
      exact ⟨m, he⟩
    · intro op hop
      obtain ⟨m, _, he⟩ := foldUpdate_trace F p sc _ _ op hop
      exact ⟨m, he⟩
    · intro op hop
      rcases syncDirs_trace F p _ true sc _ tc4 tr4 hs4 Hrec op hop with hmk | hdeep
      · exact Or.inl hmk.2
      · exact Or.inr hdeep
    · intro op hop
      obtain ⟨m, _, he⟩ := foldRmtree_trace F p _ _ op hop
      exact ⟨m, he⟩
    · intro op hop
      rcases syncDirs_trace F p _ false sc _ tc6 tr6 hs6 Hrec op hop with hmk | hdeep
      · exact absurd hmk.1 (by simp)
      · exact hdeep

/-- Witness for C4 amended, on the counterexample run. -/
theorem claim_c4_operation_order_witness :
    dirSyncE noFaults [] (.dir [("d", Entry.dir [])]) (.dir [("x", Entry.file [0])]) =
      .ok (.dir [("d", Entry.dir [])], [.removeF ["x"], .mkdir ["d"]]) ∧
    (∃ t1 t2 t3 t4 t5 t6,
      [Op.removeF ["x"], Op.mkdir ["d"]] = t1 ++ t2 ++ t3 ++ t4 ++ t5 ++ t6 ∧
      (∀ op ∈ t1, ∃ n, op = Op.copy ([] ++ [n])) ∧
      (∀ op ∈ t2, ∃ n, op = Op.removeF ([] ++ [n])) ∧
      (∀ op ∈ t3, ∃ n, op = Op.update ([] ++ [n])) ∧
      (∀ op ∈ t4, (∃ n, op = Op.mkdir ([] ++ [n])) ∨ deeper [] op) ∧
      (∀ op ∈ t5, ∃ n, op = Op.rmtree ([] ++ [n])) ∧
      (∀ op ∈ t6, deeper [] op)) :=
  ⟨rfl, claim_c4_operation_order noFaults [] (.dir [("d", Entry.dir [])])
    (.dir [("x", Entry.file [0])]) (.dir [("d", Entry.dir [])])
    [.removeF ["x"], .mkdir ["d"]] rfl⟩

/-! ### Claim C10 — invisibility of non-regular entries -/

theorem syncDirs_preserve (F : Faults) (p : List String) (names : List String)
    (create : Bool) :
    ∀ (l tc tc2 : Children) (tr : List Op),
      syncDirs F p names create l tc = .ok (tc2, tr) →
      ∀ m, m ∉ keys l → lookup m tc2 = lookup m tc := by
  intro l
  induction l with
  | nil =>
      intro tc tc2 tr h m _
      injection h with h
      have h1 : tc = tc2 := congrArg Prod.fst h
      rw [← h1]
  | cons hd rest ih =>
      obtain ⟨n, e⟩ := hd
      intro tc tc2 tr h m hm
      rw [keys_cons] at hm
      have hmn : m ≠ n := fun hx => hm (hx ▸ List.mem_cons_self n _)
      have hmr : m ∉ keys rest := fun hx => hm (List.mem_cons_of_mem n hx)
      rw [syncDirs] at h
      by_cases hc : names.contains n = true
      · simp only [hc, if_true] at h
        cases hrun : dirSyncE F (p ++ [n]) e
            ((lookup n (if create = true then createDirP F p n tc else (tc, [])).1).getD
              .other) with
        | error u =>
            rw [hrun] at h
            exact absurd h (by simp)
        | ok pr =>
            obtain ⟨r', tr'⟩ := pr
            rw [hrun] at h
            simp only [] at h
            cases hs2 : syncDirs F p names create rest
                (upsert n r' (if create = true then createDirP F p n tc else (tc, [])).1) with
            | error u =>
                rw [hs2] at h
                exact absurd h (by simp)
            | ok pr2 =>
                obtain ⟨tc3, tr3⟩ := pr2
                rw [hs2] at h
                simp only [] at h
                injection h with h
                have h1 : tc3 = tc2 := congrArg Prod.fst h
                rw [← h1]
                rw [ih _ tc3 tr3 hs2 m hmr,
                  lookup_upsert_ne n m r' (Ne.symm hmn)]
                cases create with
                | true => exact createDirP_lookup_ne F p n tc m hmn
                | false => rfl
      · simp only [hc, Bool.false_eq_true, if_false] at h
        exact ih tc tc2 tr h m hmr

/-- C10 counterexample: the replica holds an entry `a` that is neither a
regular file nor a directory (e.g. a FIFO), while the source has a
regular file `a`.  The path `a` then appears in `newFiles` — the set is
not free of such entries' paths, and `dirSync` will aim a copy at the
path occupied by the non-regular entry. -/
theorem claim_c10_counterexample :
    dirCmpE noFaults [] (.dir [("a", .file [0])]) (.dir [("a", .other)]) =
      .ok ⟨["a"], [], [], [], [], []⟩ ∧
    Entry.other.visFile = false ∧ Entry.other.visDir = false ∧
    "a" ∈ (⟨["a"], [], [], [], [], []⟩ : DirDiff).newFiles :=
  ⟨rfl, rfl, rfl, by decide⟩

/-- C10 amended: an entry that is neither a regular file nor a directory
is invisible to `dirCmp` on its own side; when additionally no visible
source entry claims the same name (the name is present only in the
replica), the name appears in none of the six sets and a fault-free pass
leaves the replica entry exactly in place. -/
theorem claim_c10_invisible (sc tc : Children) (p : List String) (n : String)
    (hnsc : nodupKeys sc = true) (hntc : nodupKeys tc = true)
    (hsrc : lookup n sc = none) (g : Entry) (htgt : lookup n tc = some g)
    (hgf : g.visFile = false) (hgd : g.visDir = false) :
    (∀ d, dirCmpE noFaults p (.dir sc) (.dir tc) = .ok d →
      n ∉ d.newFiles ∧ n ∉ d.newDirs ∧ n ∉ d.updateFiles ∧ n ∉ d.updateDirs ∧
      n ∉ d.removedFiles ∧ n ∉ d.removedDir) ∧
    (∀ r tr, dirSyncE noFaults p (.dir sc) (.dir tc) = .ok (r, tr) →
      ∃ rc, r = .dir rc ∧ lookup n rc = lookup n tc) := by
  have hfs : visFileAt sc n = false := by
    rw [visFileAt, hsrc]
    rfl
  have hds : visDirAt sc n = false := by
    rw [visDirAt, hsrc]
    rfl
  have hft : visFileAt tc n = false := by
    rw [visFileAt, htgt]
    exact hgf
  have hdt : visDirAt tc n = false := by
    rw [visDirAt, htgt]
    exact hgd
  have hnotin : ∀ d, d = dirCmpSets sc tc →
      n ∉ d.newFiles ∧ n ∉ d.newDirs ∧ n ∉ d.updateFiles ∧ n ∉ d.updateDirs ∧
      n ∉ d.removedFiles ∧ n ∉ d.removedDir := by
    intro d hd
    subst hd
    refine ⟨?_, ?_, ?_, ?_, ?_, ?_⟩
    · intro hmem
      have := ((mem_newFiles sc tc hnsc hntc n).mp hmem).1
      rw [hfs] at this
      exact absurd this (by simp)
    · intro hmem
      have := ((mem_newDirs sc tc hnsc hntc n).mp hmem).1
      rw [hds] at this
      exact absurd this (by simp)
    · intro hmem
      have := ((mem_updateFiles sc tc hnsc hntc n).mp hmem).1
      rw [hfs] at this
      exact absurd this (by simp)
    · intro hmem
      have := ((mem_updateDirs sc tc hnsc hntc n).mp hmem).1
      rw [hds] at this
      exact absurd this (by simp)
    · intro hmem
      have := ((mem_removedFiles sc tc hnsc hntc n).mp hmem).1
      rw [hft] at this
      exact absurd this (by simp)
    · intro hmem
      have := ((mem_removedDir sc tc hnsc hntc n).mp hmem).1
      rw [hdt] at this
      exact absurd this (by simp)
  refine ⟨fun d hd => hnotin d (dirCmpE_ok_inv noFaults p sc tc d hd), ?_⟩
  intro r tr h
  obtain ⟨hcmp, tc4, tr4, tc6, tr6, hs4, hs6, hr, htr⟩ :=
    dirSyncE_run noFaults p sc tc r tr h
  have hkeys : n ∉ keys sc := by
    intro hk
    obtain ⟨e, hmem⟩ := (mem_keys_iff n sc).mp hk
    rw [lookup_eq_of_mem n e sc hnsc hmem] at hsrc
    exact absurd hsrc (by simp)
  obtain ⟨hd1, hd2, hd3, hd4, hd5, hd6⟩ := hnotin (dirCmpSets sc tc) rfl
  refine ⟨tc6, hr, ?_⟩
  rw [syncDirs_preserve noFaults p _ false sc _ tc6 tr6 hs6 n hkeys,
    foldRmtree_preserve noFaults p _ tc4 n hd6,
    syncDirs_preserve noFaults p _ true sc _ tc4 tr4 hs4 n hkeys,
    foldUpdate_preserve noFaults p sc _ _ n hd3,
    foldRemove_preserve noFaults p _ _ n hd5,
    foldCopy_preserve noFaults p sc _ tc n hd1]

/-- Witness for C10 amended: replica-only FIFO `a` beside a mirrored
file `b`. -/
theorem claim_c10_invisible_witness :
    (nodupKeys [("b", Entry.file [1])] = true ∧
      nodupKeys [("b", Entry.file [1]), ("a", Entry.other)] = true ∧
      lookup "a" [("b", Entry.file [1])] = none ∧
      lookup "a" [("b", Entry.file [1]), ("a", Entry.other)] = some .other ∧
      Entry.other.visFile = false ∧ Entry.other.visDir = false) ∧
    ((∀ d, dirCmpE noFaults [] (.dir [("b", Entry.file [1])])
        (.dir [("b", Entry.file [1]), ("a", Entry.other)]) = .ok d →
      "a" ∉ d.newFiles ∧ "a" ∉ d.newDirs ∧ "a" ∉ d.updateFiles ∧ "a" ∉ d.updateDirs ∧
      "a" ∉ d.removedFiles ∧ "a" ∉ d.removedDir) ∧
    (∀ r tr, dirSyncE noFaults [] (.dir [("b", Entry.file [1])])
        (.dir [("b", Entry.file [1]), ("a", Entry.other)]) = .ok (r, tr) →
      ∃ rc, r = .dir rc ∧
        lookup "a" rc = lookup "a" [("b", Entry.file [1]), ("a", Entry.other)])) :=
  ⟨⟨rfl, rfl, rfl, rfl, rfl, rfl⟩,
    claim_c10_invisible [("b", Entry.file [1])]
      [("b", Entry.file [1]), ("a", Entry.other)] [] "a" rfl rfl rfl
      .other rfl rfl rfl⟩

end VSync
